import Mathlib

/-!
A verification development for the pydepsync dependency-detection engine.

The Rust sources are embedded shallowly:

* Rust `String` / `&str` values are modelled as `List Char` (`Str` below);
  byte indices and byte lengths coincide with character indices and lengths
  on the ASCII data the program manipulates, and the byte-lexicographic
  order on UTF-8 strings coincides with the code-point-lexicographic order.
* A Rust `HashSet<String>` passed around as data is modelled as a list,
  with every stated property phrased so that it is independent of
  iteration order; the `HashSet<String>` field stored inside a dependency
  (its extras) is modelled by its canonical representative, the sorted
  duplicate-free list of its elements, so that structural equality of the
  model coincides with set equality of the hash sets.
* Fallible calls return `Option`/`Except`; a Rust `panic!` (from `unwrap`)
  is modelled by the dedicated outcome type `Run`.
* External collaborators (the network, the HTML scraper, the Python
  syntax-tree library, the UTF-8 decoder) are abstracted as parameters.
-/

/-- Rust strings, modelled as lists of characters. -/
abbrev Str := List Char

/-- Whitespace test: models the regex class backslash-s and Rust trim
(restricted to the common ASCII whitespace characters). -/
def isWs (c : Char) : Bool := c.isWhitespace

/-- Characters allowed in a dependency name: the regex class
`[A-Za-z0-9-_.]` from `Dependency::parse` (src/dependency.rs line 87). -/
def nameChar (c : Char) : Bool :=
  c.isAlpha || c.isDigit || c = '-' || c = '_' || c = '.'

/-- Characters allowed in a version token: the regex class `[\d\w\-.]`
from `Dependency::parse`, with the word class restricted to ASCII. -/
def verChar (c : Char) : Bool :=
  c.isDigit || c.isAlpha || c = '_' || c = '-' || c = '.'

/-- First characters of the two-character comparator operators: the regex
class `[~=<>!]` from `Dependency::parse`. -/
def tilClass (c : Char) : Bool :=
  c = '~' || c = '=' || c = '<' || c = '>' || c = '!'

/-- Rust `str::trim`, removing leading and trailing whitespace. -/
def trimStr (l : Str) : Str :=
  ((l.dropWhile isWs).reverse.dropWhile isWs).reverse

/-- Rust `str::split(c)`: always returns at least one piece. -/
def splitOnChar (c : Char) : Str → List Str
  | [] => [[]]
  | x :: xs =>
    if x = c then [] :: splitOnChar c xs
    else
      match splitOnChar c xs with
      | r :: rs => (x :: r) :: rs
      | [] => [[x]]

/-- Rust `Vec<String>::join(",")` specialised to a one-character separator. -/
def joinWithChar (c : Char) : List Str → Str
  | [] => []
  | [x] => x
  | x :: xs => x ++ c :: joinWithChar c xs

/-- Comparison of two characters by code point (equals the Rust byte order
on UTF-8 strings, since UTF-8 preserves code-point order). -/
def charCmp (a b : Char) : Ordering :=
  if a < b then .lt else if b < a then .gt else .eq

/-- Rust `Ord` for `String`: lexicographic comparison. -/
def lexCmp : Str → Str → Ordering
  | [], [] => .eq
  | [], _ :: _ => .lt
  | _ :: _, [] => .gt
  | a :: as_, b :: bs =>
    match charCmp a b with
    | .eq => lexCmp as_ bs
    | r => r

/-- One step of a stable insertion sort driven by a comparator: the new
element is placed before the first element it does not strictly exceed. -/
def insertSorted (cmp : α → α → Ordering) (x : α) : List α → List α
  | [] => [x]
  | y :: ys => if cmp x y = .gt then y :: insertSorted cmp x ys else x :: y :: ys

/-- Rust `slice::sort_by` (a stable sort), modelled as stable insertion
sort.  The two agree on every list on which a stable sort is determined by
the comparator alone: lists of at most two elements, and lists on which the
comparator restricts to a total order — the only uses below. -/
def rustSortBy (cmp : α → α → Ordering) : List α → List α
  | [] => []
  | x :: xs => insertSorted cmp x (rustSortBy cmp xs)

/-- The canonical representative of a `HashSet<String>` built from the
elements of `l`: duplicates removed, sorted. -/
def hashSetOfList (l : List Str) : List Str := rustSortBy lexCmp l.dedup

/-- The dependency specifier of src/dependency.rs: name (original case),
extras (a `HashSet<String>`, represented canonically — see the header),
optional `(operator, version)` pair, optional environment marker. -/
structure Dependency where
  name : Str
  extras : List Str
  version_spec : Option (Str × Str)
  markers : Option Str
deriving DecidableEq

namespace Dependency

/-!
`Dependency::parse` uses the anchored Rust regex

  `^([A-Za-z0-9-_.]+)(?:[(.*?)])?(?:s*([~=<>!]={1,2}|[<>]|^)s*([dw-.]+))?s*(?:;s*(.+))?`

(brackets and escapes elided; see src/dependency.rs line 87).  The regex
crate uses leftmost-first (Perl-style preference) semantics.  Because every
group after the name is optional and can match the empty string, the match
never backtracks into an earlier group: the name is the maximal run of name
characters; the extras group matches exactly when a `]` occurs after the
`[` with no newline before it, and captures lazily up to the first `]`;
the version group tries the operator alternatives in preference order
(two `=` before one, then `<`/`>`, then caret) and is skipped entirely if
no alternative is followed by a nonempty version token; the marker group
requires a `;` after optional whitespace and captures greedily up to the
next newline, backtracking its leading whitespace only when everything
after the `;` is whitespace.  The functions below implement exactly that
derived deterministic behaviour.
-/

/-- The extras group `(?:[(.*?)])?`: returns the raw captured text (if the
group participates) and the remaining input. -/
def parseExtrasRaw (rest1 : Str) : Option Str × Str :=
  match rest1 with
  | '[' :: t =>
    let p := t.takeWhile (fun c => c ≠ ']')
    if (']' ∈ t ∧ '\n' ∉ p : Prop) then (some p, t.drop (p.length + 1))
    else (none, rest1)
  | _ => (none, rest1)

/-- The candidates contributed by the first regex alternative
`[~=<>!]={1,2}` once its head character `c` matched: greedy `={2}` before
`={1}`, each paired with the input remaining after it. -/
def opSplitTil (c : Char) (rest : Str) : List (Str × Str) :=
  match rest with
  | '=' :: '=' :: r => [([c, '=', '='], r), ([c, '='], '=' :: r)]
  | '=' :: r => [([c, '='], r)]
  | _ => []

/-- The operator alternatives in regex preference order, each paired with
the input remaining after it. -/
def opSplit (w : Str) : List (Str × Str) :=
  match w with
  | [] => []
  | c :: rest =>
    (if tilClass c then opSplitTil c rest else []) ++
    (if c = '<' ∨ c = '>' then [([c], rest)] else []) ++
    (if c = '^' then [([c], rest)] else [])

/-- After an operator candidate: skip whitespace and demand a nonempty
version token. -/
def tryVer (op : Str) (r : Str) : Option ((Str × Str) × Str) :=
  let r' := r.dropWhile isWs
  let ver := r'.takeWhile verChar
  if ver = [] then none else some ((op, ver), r'.drop ver.length)

/-- The version group `(?:s*(op)s*(ver))?`: the first operator alternative
followed by a nonempty version token wins; otherwise the group is skipped
and consumes nothing. -/
def parseVersionGroup (rest2 : Str) : Option ((Str × Str) × Str) :=
  (opSplit (rest2.dropWhile isWs)).firstM (fun p => tryVer p.1 p.2)

/-- The marker capture `(.+)` after `;s*`: greedy from the first
non-whitespace character up to the next newline; if everything after the
`;` is whitespace, backtracking of `s*` yields the last character that is
not a newline. -/
def markerOf (u : Str) : Option Str :=
  let v := u.dropWhile isWs
  match v with
  | _ :: _ => some (v.takeWhile (fun c => c ≠ '\n'))
  | [] =>
    match u.reverse.dropWhile (fun c => c = '\n') with
    | [] => none
    | c :: _ => some [c]

/-- The whole marker part `s*(?:;s*(.+))?`. -/
def parseMarkerPart (rest3 : Str) : Option Str :=
  match rest3.dropWhile isWs with
  | ';' :: u => markerOf u
  | _ => none

/-- The extras capture turned into the stored field: absent groups give the
empty set (`unwrap_or_default`), present groups are split on commas, each
piece trimmed, and the pieces collected into a `HashSet` (src/dependency.rs
lines 93-101), represented canonically. -/
def extrasOf : Option Str → List Str
  | none => []
  | some p => hashSetOfList ((splitOnChar ',' p).map trimStr)

/-- `Dependency::parse` (src/dependency.rs lines 86-116). -/
def parse (s : Str) : Option Dependency :=
  let name := s.takeWhile nameChar
  if name = [] then none
  else
    let rest1 := s.dropWhile nameChar
    let ex := parseExtrasRaw rest1
    let vg := parseVersionGroup ex.2
    let rest3 := match vg with | some (_, r) => r | none => ex.2
    some { name := name
           extras := extrasOf ex.1
           version_spec := vg.map Prod.fst
           markers := parseMarkerPart rest3 }

/-- The `Display` implementation for `Dependency` (src/dependency.rs lines
14-41): name, then the sorted comma-joined extras in brackets when
nonempty, then the operator and version when present, then `"; "` and the
marker when present.  The source collects the hash set into a vector and
sorts it; on the canonical (already sorted, duplicate-free) representative
that collect-and-sort is the identity, so the field is joined directly. -/
def fmt (d : Dependency) : Str :=
  d.name ++
    (if d.extras = [] then []
     else '[' :: joinWithChar ',' d.extras ++ [']']) ++
    (match d.version_spec with
     | some v => v.1 ++ v.2
     | none => []) ++
    (match d.markers with
     | some m => ';' :: ' ' :: m
     | none => [])

/-- Rust `PartialEq`/`Hash` for `Dependency`: identity is the lowercased
name only (src/dependency.rs lines 43-53); lowercasing modelled on ASCII. -/
def nameKey (d : Dependency) : Str := d.name.map Char.toLower

end Dependency

/-- The result of running a piece of Rust code that may `panic!` (via
`unwrap`): either a normal value or a panic. -/
inductive Outcome (α : Type) where
  | panicked : Outcome α
  | value : α → Outcome α
deriving DecidableEq

/-- Modelled from the spec: the built-in static irregulars table of the
missing src/engine/irregulars.rs (`get_python_irregulars`).  The spec
documents the entries `AFQ -> pyAFQ` (section 8, also exercised by the
evaluator unit test `test_remaps_irregular`) and `rest_framework ->
djangorestframework` (section 8, end-to-end property). -/
def get_python_irregulars : List (Str × Str) :=
  [("AFQ".toList, "pyAFQ".toList),
   ("rest_framework".toList, "djangorestframework".toList)]

/-- Modelled from the spec: the static standard-library module set of the
missing src/engine/stdlib.rs (`get_python_stdlib_modules`).  The spec
documents membership of `os` (section 8, also exercised by the evaluator
unit test `test_excludes_stdlib`). -/
def get_python_stdlib_modules : List Str :=
  ["os".toList]

/-- Rust `HashMap::insert`, on the association-list model of a
`HashMap<String, String>`: an existing binding of the key is overwritten,
a new key is appended. -/
def hashMapInsert (m : List (Str × Str)) (k v : Str) : List (Str × Str) :=
  match m with
  | [] => [(k, v)]
  | (k', v') :: rest =>
    if k' = k then (k, v) :: rest else (k', v') :: hashMapInsert rest k v

/-- The candidate evaluator state (src/engine/evaluator.rs lines 8-11);
the field name keeps the source spelling. -/
structure DependencyEvaluator where
  stdlib_pakages : List Str
  irregulars_to_remap : List (Str × Str)

/-- `DependencyEvaluator::new` (src/engine/evaluator.rs lines 14-23): the
caller-supplied override map is taken as the starting map and every
built-in irregular entry is then inserted into it. -/
def DependencyEvaluator.new (extras_to_remap : List (Str × Str)) :
    DependencyEvaluator :=
  { stdlib_pakages := get_python_stdlib_modules
    irregulars_to_remap :=
      get_python_irregulars.foldl (fun m kv => hashMapInsert m kv.1 kv.2)
        extras_to_remap }

/-- The remap step inside `evaluate` (src/engine/evaluator.rs lines 41-47):
look the candidate up in the irregulars map, pass it through unchanged on a
miss. -/
def DependencyEvaluator.remap (self : DependencyEvaluator) (c : Str) : Str :=
  match self.irregulars_to_remap.lookup c with
  | some m => m
  | none => c

/-- Membership of a dependency in a `HashSet<Dependency>`, which hashes and
compares by lowercased name only. -/
def depSetContains (s : List Dependency) (d : Dependency) : Bool :=
  s.any (fun e => e.nameKey = d.nameKey)

/-- The fate of one candidate inside `evaluate` (src/engine/evaluator.rs
lines 36-50): dropped by the stdlib filter, dropped by the local-package
filter, remapped and then dropped by the existing-dependency filter, or
kept (as the remapped name).  The `unwrap` on `Dependency::parse` of the
remapped name is a potential panic. -/
def evalStep (self : DependencyEvaluator) (existing_deps : List Dependency)
    (local_packages : List Str) (c : Str) : Outcome (Option Str) :=
  if c ∈ self.stdlib_pakages then .value none
  else if c ∈ local_packages then .value none
  else
    let r := self.remap c
    match Dependency.parse r with
    | none => .panicked
    | some d => if depSetContains existing_deps d then .value none
                else .value (some r)

/-- The candidate pipeline of `evaluate`, applied to each candidate in
iteration order. -/
def evalCandidates (self : DependencyEvaluator) (existing_deps : List Dependency)
    (local_packages : List Str) : List Str → Outcome (List (Option Str))
  | [] => .value []
  | c :: cs =>
    match evalStep self existing_deps local_packages c with
    | .panicked => .panicked
    | .value r =>
      match evalCandidates self existing_deps local_packages cs with
      | .panicked => .panicked
      | .value rs => .value (r :: rs)

/-- The final collection of `evaluate` (src/engine/evaluator.rs lines
52-54): every surviving name is parsed again (another `unwrap`). -/
def parseAll : List Str → Outcome (List Dependency)
  | [] => .value []
  | c :: cs =>
    match Dependency.parse c with
    | none => .panicked
    | some d =>
      match parseAll cs with
      | .panicked => .panicked
      | .value ds => .value (d :: ds)

/-- `DependencyEvaluator::evaluate` (src/engine/evaluator.rs lines 25-55):
filter out stdlib candidates, filter out local packages, remap through the
irregulars table, filter out (post-remap) names already declared, collect
the survivors into a `HashSet<String>` (modelled by `dedup`) and parse each
into a `Dependency`.  The result list models the returned
`HashSet<Dependency>` up to iteration order. -/
def DependencyEvaluator.evaluate (self : DependencyEvaluator)
    (candidates : List Str) (existing_deps : List Dependency)
    (local_packages : List Str) : Outcome (List Dependency) :=
  match evalCandidates self existing_deps local_packages candidates with
  | .panicked => .panicked
  | .value rs => parseAll (rs.filterMap id).dedup

/-- Rust `i32::from_str`: optional sign, at least one ASCII digit, value
within the 32-bit two-complement range. -/
def digitsToNat (ds : Str) : Nat :=
  ds.foldl (fun n c => n * 10 + (c.toNat - '0'.toNat)) 0

/-- Core of `parseI32` for an optional leading sign. -/
def parseI32Core (neg : Bool) (ds : Str) : Option Int :=
  if ds = [] then none
  else if ds.all Char.isDigit then
    let v : Int := if neg then -(digitsToNat ds : Int) else (digitsToNat ds : Int)
    if -(2 ^ 31) ≤ v ∧ v < 2 ^ 31 then some v else none
  else none

/-- Rust `str::parse::<i32>()`. -/
def parseI32 : Str → Option Int
  | '+' :: ds => parseI32Core false ds
  | '-' :: ds => parseI32Core true ds
  | ds => parseI32Core false ds

/-- The comparator closure passed to `sort_by` in
`get_latest_version_from_version_str` (src/engine/resolver.rs lines
127-142), as a function of the zipped dot-separated segments and of the
two whole version strings: corresponding segments that both parse as `i32`
compare numerically descending with early return on inequality; a pair
where either side fails to parse returns the descending comparison of the
two whole strings; if the loop finishes, the longer string sorts first. -/
def versionCmpGo (b a : Str) : List (Str × Str) → Ordering
  | [] => compare b.length a.length
  | (pa, pb) :: rest =>
    match parseI32 pa, parseI32 pb with
    | some x, some y => if x ≠ y then compare y x else versionCmpGo b a rest
    | _, _ => lexCmp b a

/-- The version comparator of the resolver (src/engine/resolver.rs lines
127-142). -/
def versionCmp (a b : Str) : Ordering :=
  versionCmpGo b a ((splitOnChar '.' a).zip (splitOnChar '.' b))

/-- `PackageResolver::get_latest_version_from_version_str`
(src/engine/resolver.rs lines 125-145): sort by the comparator and take the
first element. -/
def get_latest_version_from_version_str (versions : List Str) : Option Str :=
  (rustSortBy versionCmp versions).head?

/-- Rust `str::find` for a substring: index of the first occurrence. -/
def firstIdxOfSub (pat : Str) : Str → Option Nat
  | [] => if pat = [] then some 0 else none
  | c :: t =>
    if pat.isPrefixOf (c :: t) then some 0
    else (firstIdxOfSub pat t).map (· + 1)

/-- The resolver state (src/engine/resolver.rs lines 9-11). -/
structure PackageResolver where
  indexes : List Str

/-- `PackageResolver::new` (src/engine/resolver.rs lines 14-27): the
preferred index (when configured), then the default public index, then the
extra indexes in caller order. -/
def PackageResolver.new (extra_indexes : List Str) (preferred_index : Option Str) :
    PackageResolver :=
  let pref_index := match preferred_index with
    | some i => [i]
    | none => []
  let default_indexes := ["https://pypi.org/simple".toList]
  { indexes := pref_index ++ default_indexes ++ extra_indexes }

/-- The io::Error payload of the resolver result type, opaque to the model. -/
abbrev IoError := Unit

/-- The external world seen by one resolver run, keyed by request URL:
whether the GET call succeeds, whether reading the response body succeeds,
and the `href` attributes (possibly absent) of the anchor elements the HTML
scraper extracts from the body.  The scraper and HTTP client are external
collaborators, so they enter the model as this oracle. -/
structure Net where
  callOk : Str → Bool
  readOk : Str → Bool
  anchors : Str → List (Option Str)

/-- One anchor step of the version-scraping loop in
`parse_versions_on_index` (src/engine/resolver.rs lines 104-120): take the
last `/`-separated component of the href, find the first occurrence of
`<name>-`, take what follows up to the first `.tar.gz`, and keep it only
when it consists of ASCII digits and dots. -/
def scrapeStep (depName : Str) (versions : List Str) (href? : Option Str) :
    List Str :=
  match href? with
  | none => versions
  | some href =>
    match (splitOnChar '/' href).getLast? with
    | none => versions
    | some filename =>
      match firstIdxOfSub (depName ++ ['-']) filename with
      | none => versions
      | some start =>
        let rest := filename.drop (start + (depName ++ ['-']).length)
        match firstIdxOfSub ".tar.gz".toList rest with
        | none => versions
        | some e =>
          let version := rest.take e
          if version.all (fun c => c.isDigit || c = '.') then
            versions ++ [version]
          else versions

/-- `PackageResolver::parse_versions_on_index` (src/engine/resolver.rs
lines 87-123).  The selector literal `"a"` always parses, so the early
`None` return for a selector error is dead and the result is always
`Some`. -/
def parse_versions_on_index (dep : Dependency) (anchors : List (Option Str)) :
    Option (List Str) :=
  some (anchors.foldl (scrapeStep dep.name) [])

/-- `PackageResolver::resolve_on_index` (src/engine/resolver.rs lines
41-85): a failed call or an unreadable body yields `None` (logged only);
otherwise the scraped versions are reduced to the latest one and composed
into `<name>~=<version>`, whose re-parse is `unwrap`ped. -/
def resolve_on_index (net : Net) (dep : Dependency) (index : Str) :
    Outcome (Option Dependency) :=
  let url := index ++ '/' :: dep.name
  if net.callOk url = false then .value none
  else if net.readOk url = false then .value none
  else
    let versions := (parse_versions_on_index dep (net.anchors url)).getD []
    match get_latest_version_from_version_str versions with
    | some v =>
      match Dependency.parse (dep.name ++ '~' :: '=' :: v) with
      | some d => .value (some d)
      | none => .panicked
    | none => .value none

/-- The `find_map` over the index list inside `PackageResolver::resolve`. -/
def resolveGo (net : Net) (dep : Dependency) : List Str → Outcome (Option Dependency)
  | [] => .value none
  | idx :: rest =>
    match resolve_on_index net dep idx with
    | .panicked => .panicked
    | .value (some d) => .value (some d)
    | .value none => resolveGo net dep rest

/-- `PackageResolver::resolve` (src/engine/resolver.rs lines 29-38): the
first index that yields a dependency wins; if none does, the original
dependency is returned, and in either case the result is `Ok`. -/
def PackageResolver.resolve (self : PackageResolver) (net : Net)
    (dep : Dependency) : Outcome (Except IoError Dependency) :=
  match resolveGo net dep self.indexes with
  | .panicked => .panicked
  | .value (some d) => .value (.ok d)
  | .value none => .value (.ok dep)

/-- A statement of the Python syntax tree, as far as the import extractor
observes it: a direct import (with its dotted names), a from-import (with
its optional source module), or anything else. -/
inductive PyStmt where
  | importStmt : List Str → PyStmt
  | importFromStmt : Option Str → PyStmt
  | otherStmt : PyStmt

/-- A parsed Python module: its statement list. -/
structure PyModule where
  body : List PyStmt

/-- `extract_dependencies` (src/engine/parser.rs lines 4-29).  The external
`rustpython_parser::parse` call is abstracted as `pyparse`; its `Err`
result is `unwrap`ped — a panic — and `ast.module()` returning `None`
yields no imports.  The direct-import names come first, then the
from-import module names, as in the source. -/
def extract_dependencies (pyparse : Str → Except Str (Option PyModule))
    (py_code : Str) : Outcome (Except IoError (List Str)) :=
  match pyparse py_code with
  | .error _ => .panicked
  | .ok m =>
    let imports := match m with
      | some mo =>
        (mo.body.filterMap fun s =>
          match s with
          | .importStmt ns => some ns
          | _ => none).flatten
      | none => []
    let from_imports := match m with
      | some mo =>
        mo.body.filterMap fun s =>
          match s with
          | .importFromStmt nm => nm
          | _ => none
      | none => []
    .value (.ok (imports ++ from_imports))

/-- The typed error of the detection engine (src/engine/mod.rs lines
47-60). -/
inductive DetectEngineError where
  | EvaluationError
  | FileFindingError
  | FileReadingError
  | ParsingError
  | ResolverError
deriving DecidableEq

/-- The reduction of an extracted import to its top-level module name
(src/engine/mod.rs line 105): `i.split(".").take(1).collect()`. -/
def firstSegment (i : Str) : Str := (splitOnChar '.' i).headD []

/-- The candidate-collection loop of `DetectEngine::detect_dependencies`
(src/engine/mod.rs lines 94-110), over abstract file handles: read the
bytes of each discovered file (a typed `FileReadingError` on failure),
convert them to a string with `from_utf8(..).unwrap()` — a panic when the
bytes are not valid UTF-8 — and run the import parser (a typed
`ParsingError` on failure), accumulating first segments.  `read`, the
UTF-8 decoder and the Python parser are external and enter as parameters. -/
def candidatesLoop {α : Type} (readBytes : α → Except IoError (List Nat))
    (utf8Dec : List Nat → Option Str)
    (pyparse : Str → Except Str (Option PyModule)) :
    List α → Outcome (Except DetectEngineError (List Str))
  | [] => .value (.ok [])
  | f :: fs =>
    match readBytes f with
    | .error _ => .value (.error .FileReadingError)
    | .ok contents =>
      match utf8Dec contents with
      | none => .panicked
      | some content_str =>
        match extract_dependencies pyparse content_str with
        | .panicked => .panicked
        | .value (.error _) => .value (.error .ParsingError)
        | .value (.ok imports) =>
          match candidatesLoop readBytes utf8Dec pyparse fs with
          | .panicked => .panicked
          | .value (.error e) => .value (.error e)
          | .value (.ok rest) => .value (.ok (imports.map firstSegment ++ rest))

/-- The latest-version selection as claimed: segments compare numerically
descending (a numeric segment being a nonempty all-digit token), a
non-numeric pair falls back to the descending lexicographic comparison of
the two remaining tails (the segments from the current pair onward,
rejoined with dots), and when all compared segments tie the longer whole
string wins. -/
def claimSegCmp (a b : Str) : List Str → List Str → Ordering
  | pa :: ra, pb :: rb =>
    if (pa ≠ [] ∧ pa.all Char.isDigit) ∧ (pb ≠ [] ∧ pb.all Char.isDigit) then
      match compare (digitsToNat pb) (digitsToNat pa) with
      | .eq => claimSegCmp a b ra rb
      | r => r
    else
      match lexCmp (joinWithChar '.' (pb :: rb)) (joinWithChar '.' (pa :: ra)) with
      | .eq => compare b.length a.length
      | r => r
  | _, _ => compare b.length a.length

/-- The whole-list latest-version selection as the claim describes it. -/
def claimLatestVersion (versions : List Str) : Option Str :=
  (rustSortBy (fun a b => claimSegCmp a b (splitOnChar '.' a) (splitOnChar '.' b))
    versions).head?

/-- The comparator of the amended claim, written as a fold over the zipped
segments: each pair contributes its descending numeric comparison when both
sides parse as `i32` and the descending comparison of the two whole version
strings otherwise, ties flowing to the next pair and finally to the
longer-string rule. -/
def versionCmpSpec (a b : Str) : Ordering :=
  (((splitOnChar '.' a).zip (splitOnChar '.' b)).foldr
    (fun p acc =>
      (match parseI32 p.1, parseI32 p.2 with
       | some x, some y => compare y x
       | _, _ => lexCmp b a).then acc)
    (compare b.length a.length))

/-- The tie-chaining fold underlying `versionCmpSpec`, as a named function
of the segment pair list. -/
def specChain (b a : Str) (ps : List (Str × Str)) : Ordering :=
  ps.foldr
    (fun p acc =>
      (match parseI32 p.1, parseI32 p.2 with
       | some x, some y => compare y x
       | _, _ => lexCmp b a).then acc)
    (compare b.length a.length)

/-- A network oracle on which every request fails. -/
def netDown : Net := ⟨fun _ => false, fun _ => false, fun _ => []⟩

/-- A network oracle whose every response lists one release of `requests`. -/
def netOneHit : Net :=
  ⟨fun _ => true, fun _ => true, fun _ => [some "requests-1.0.tar.gz".toList]⟩

/-- An unconstrained specifier for the package `requests`. -/
def depRequests : Dependency := ⟨"requests".toList, [], none, none⟩

/-- The pinned specifier `requests~=1.0`. -/
def depRequestsPinned : Dependency :=
  ⟨"requests".toList, [], some ("~=".toList, "1.0".toList), none⟩

/-- A network oracle whose every response lists one release of `pandas`. -/
def netPandas : Net :=
  ⟨fun _ => true, fun _ => true, fun _ => [some "pandas-2.1.3.tar.gz".toList]⟩

/-- The shape of every operator token the version group can capture: one of
the five two-character operators `x=`, their three-character variants
`x==`, or a bare `<`, `>` or `^`. -/
def Dependency.OpShape (op : Str) : Prop :=
  (∃ c, tilClass c = true ∧ (op = [c, '=', '='] ∨ op = [c, '='])) ∨
    op = ['<'] ∨ op = ['>'] ∨ op = ['^']

/-- The shape of every marker the parser can store: either it starts with a
non-whitespace character and contains no newline, or it is one single
whitespace character other than a newline (the backtracking case). -/
def Dependency.MShape (m : Str) : Prop :=
  (∃ c cs, m = c :: cs ∧ isWs c = false ∧ '\n' ∉ m) ∨
    (∃ c, m = [c] ∧ isWs c = true ∧ c ≠ '\n')

/- ------------------------------------------------------------------ -/
/- Helper lemmas                                                      -/
/- ------------------------------------------------------------------ -/

theorem resolveGo_all_none (net : Net) (dep : Dependency) (l : List Str)
    (h : ∀ idx ∈ l, resolve_on_index net dep idx = .value none) :
    resolveGo net dep l = .value none := by
  induction l with
  | nil => rfl
  | cons i rest ih =>
    have hi := h i (List.mem_cons_self i rest)
    simp only [resolveGo, hi]
    exact ih fun idx hidx => h idx (List.mem_cons_of_mem i hidx)

theorem resolveGo_append_first (net : Net) (dep : Dependency) (pre : List Str)
    (idx : Str) (post : List Str) (d : Dependency)
    (hpre : ∀ j ∈ pre, resolve_on_index net dep j = .value none)
    (hidx : resolve_on_index net dep idx = .value (some d)) :
    resolveGo net dep (pre ++ idx :: post) = .value (some d) := by
  induction pre with
  | nil => simp only [List.nil_append, resolveGo, hidx]
  | cons j rest ih =>
    have hj := hpre j (List.mem_cons_self j rest)
    simp only [List.cons_append, resolveGo, hj]
    exact ih fun k hk => hpre k (List.mem_cons_of_mem j hk)

/- ------------------------------------------------------------------ -/
/- C3                                                                 -/
/- ------------------------------------------------------------------ -/

/-- C3: if every configured index fails to yield a version, `resolve`
returns the original unconstrained specifier unchanged, and the error
branch of the `resolve` result is unreachable: no input makes it return
`Err`. -/
theorem resolve_silent_degrade :
    (∀ (net : Net) (self : PackageResolver) (dep : Dependency),
      (∀ idx ∈ self.indexes, resolve_on_index net dep idx = .value none) →
      self.resolve net dep = .value (.ok dep)) ∧
    (∀ (net : Net) (self : PackageResolver) (dep : Dependency) (e : IoError),
      self.resolve net dep ≠ .value (.error e)) := by
  constructor
  · intro net self dep h
    simp only [PackageResolver.resolve, resolveGo_all_none net dep self.indexes h]
  · intro net self dep e
    unfold PackageResolver.resolve
    cases resolveGo net dep self.indexes with
    | panicked => simp
    | value o => cases o <;> simp

/-- Witness for C3 at a concrete resolver, specifier and a network on which
every index query fails. -/
theorem resolve_silent_degrade_witness :
    (PackageResolver.new [] none).resolve netDown depRequests =
      .value (.ok depRequests) ∧
    (PackageResolver.new [] none).resolve netDown depRequests ≠
      .value (.error ()) :=
  ⟨resolve_silent_degrade.1 netDown (PackageResolver.new [] none) depRequests
      (fun _ _ => rfl),
   resolve_silent_degrade.2 netDown (PackageResolver.new [] none) depRequests ()⟩

/- ------------------------------------------------------------------ -/
/- C4                                                                 -/
/- ------------------------------------------------------------------ -/

/-- C4: the index list is the preferred index (when configured), then the
default public index, then the extra indexes in caller order; and the first
index yielding a dependency decides the result no matter how the later
indexes would behave (first-success short-circuit). -/
theorem resolve_index_order_first_success :
    (∀ (extra_indexes : List Str) (preferred_index : Option Str),
      (PackageResolver.new extra_indexes preferred_index).indexes =
        preferred_index.toList ++ ["https://pypi.org/simple".toList] ++
          extra_indexes) ∧
    (∀ (net : Net) (dep : Dependency) (self : PackageResolver) (pre : List Str)
      (idx : Str) (post : List Str) (d : Dependency),
      self.indexes = pre ++ idx :: post →
      (∀ j ∈ pre, resolve_on_index net dep j = .value none) →
      resolve_on_index net dep idx = .value (some d) →
      self.resolve net dep = .value (.ok d)) := by
  constructor
  · intro e p; cases p <;> rfl
  · intro net dep self pre idx post d hix hpre hidx
    simp only [PackageResolver.resolve, hix,
      resolveGo_append_first net dep pre idx post d hpre hidx]

/-- Witness for C4: the default resolver has exactly the public index, and
on a network where that index answers with one release the answer is
pinned from it. -/
theorem resolve_index_order_first_success_witness :
    (PackageResolver.new [] none).indexes =
      (none : Option Str).toList ++ ["https://pypi.org/simple".toList] ++ [] ∧
    (PackageResolver.new [] none).resolve netOneHit depRequests =
      .value (.ok depRequestsPinned) :=
  ⟨resolve_index_order_first_success.1 [] none,
   resolve_index_order_first_success.2 netOneHit depRequests
     (PackageResolver.new [] none) [] "https://pypi.org/simple".toList []
     depRequestsPinned rfl (by intro j hj; exact absurd hj (List.not_mem_nil j))
     (by decide)⟩

theorem insertSorted_perm (cmp : α → α → Ordering) (x : α) (l : List α) :
    (insertSorted cmp x l).Perm (x :: l) := by
  induction l with
  | nil => exact List.Perm.refl _
  | cons y ys ih =>
    unfold insertSorted
    split
    · exact ((ih.cons y).trans (List.Perm.swap x y ys))
    · exact List.Perm.refl _

theorem rustSortBy_perm (cmp : α → α → Ordering) (l : List α) :
    (rustSortBy cmp l).Perm l := by
  induction l with
  | nil => exact List.Perm.refl _
  | cons x xs ih => exact (insertSorted_perm cmp x (rustSortBy cmp xs)).trans (ih.cons x)

theorem mem_rustSortBy {cmp : α → α → Ordering} {l : List α} {a : α} :
    a ∈ rustSortBy cmp l ↔ a ∈ l :=
  (rustSortBy_perm cmp l).mem_iff

theorem get_latest_mem {versions : List Str} {v : Str}
    (h : get_latest_version_from_version_str versions = some v) : v ∈ versions := by
  unfold get_latest_version_from_version_str at h
  have hv : v ∈ rustSortBy versionCmp versions := by
    cases hs : rustSortBy versionCmp versions with
    | nil => rw [hs] at h; exact absurd h (by simp)
    | cons a t =>
      rw [hs] at h
      simp only [List.head?] at h
      exact (Option.some.inj h) ▸ List.mem_cons_self a t
  exact mem_rustSortBy.1 hv

theorem scrapeStep_mem {n : Str} {acc : List Str} {h? : Option Str} {v : Str}
    (h : v ∈ scrapeStep n acc h?) :
    v ∈ acc ∨ v.all (fun c => c.isDigit || c = '.') = true := by
  simp only [scrapeStep] at h
  repeat' split at h
  all_goals try exact Or.inl h
  next hall =>
    rcases List.mem_append.1 h with h1 | h1
    · exact Or.inl h1
    · rcases List.mem_singleton.1 h1 with rfl
      exact Or.inr hall

theorem scrapeFold_charset {n : Str} (anchors : List (Option Str)) (acc : List Str)
    {v : Str} (h : v ∈ anchors.foldl (scrapeStep n) acc) :
    v ∈ acc ∨ v.all (fun c => c.isDigit || c = '.') = true := by
  induction anchors generalizing acc with
  | nil => exact Or.inl h
  | cons a rest ih =>
    rcases ih (scrapeStep n acc a) h with h1 | h1
    · exact scrapeStep_mem h1
    · exact Or.inr h1

/- ------------------------------------------------------------------ -/
/- C9                                                                 -/
/- ------------------------------------------------------------------ -/

/-- C9: every version string produced by the index listing scraper consists
solely of ASCII digits and dots, and consequently so does the version
selected as latest from a scrape — alphabetic pre-release suffixes never
reach the pin. -/
theorem scraped_versions_numeric :
    (∀ (dep : Dependency) (anchors : List (Option Str)) (vs : List Str) (v : Str),
      parse_versions_on_index dep anchors = some vs → v ∈ vs →
      v.all (fun c => c.isDigit || c = '.') = true) ∧
    (∀ (dep : Dependency) (anchors : List (Option Str)) (v : Str),
      get_latest_version_from_version_str
        ((parse_versions_on_index dep anchors).getD []) = some v →
      v.all (fun c => c.isDigit || c = '.') = true) := by
  have key : ∀ (dep : Dependency) (anchors : List (Option Str)) (vs : List Str)
      (v : Str), parse_versions_on_index dep anchors = some vs → v ∈ vs →
      v.all (fun c => c.isDigit || c = '.') = true := by
    intro dep anchors vs v hp hv
    unfold parse_versions_on_index at hp
    rcases Option.some.inj hp with rfl
    rcases scrapeFold_charset anchors [] hv with h1 | h1
    · exact absurd h1 (List.not_mem_nil v)
    · exact h1
  refine ⟨key, ?_⟩
  intro dep anchors v hl
  exact key dep anchors _ v rfl (get_latest_mem hl)

/-- Witness for C9 at a concrete scrape containing a beta-suffixed
filename: the suffixed token is filtered out, the plain one survives. -/
theorem scraped_versions_numeric_witness :
    parse_versions_on_index depRequests
        [some "requests-1.0.tar.gz".toList, some "requests-1.0b1.tar.gz".toList] =
      some ["1.0".toList] ∧
    "1.0".toList.all (fun c => c.isDigit || c = '.') = true ∧
    get_latest_version_from_version_str
        ((parse_versions_on_index depRequests
          [some "requests-1.0.tar.gz".toList]).getD []) = some "1.0".toList ∧
    "1.0".toList.all (fun c => c.isDigit || c = '.') = true :=
  ⟨by decide,
   scraped_versions_numeric.1 depRequests
     [some "requests-1.0.tar.gz".toList, some "requests-1.0b1.tar.gz".toList]
     ["1.0".toList] "1.0".toList (by decide) (by decide),
   by decide,
   scraped_versions_numeric.2 depRequests [some "requests-1.0.tar.gz".toList]
     "1.0".toList (by decide)⟩

theorem charCmp_eq {c d : Char} (h : charCmp c d = .eq) : c = d := by
  unfold charCmp at h
  split at h
  · exact absurd h (by simp)
  · split at h
    · exact absurd h (by simp)
    · next h1 h2 => exact le_antisymm (not_lt.1 h2) (not_lt.1 h1)

theorem charCmp_self (c : Char) : charCmp c c = .eq := by
  unfold charCmp
  simp [lt_irrefl]

theorem lexCmp_self (a : Str) : lexCmp a a = .eq := by
  induction a with
  | nil => rfl
  | cons c t ih => simp only [lexCmp, charCmp_self, ih]

theorem lexCmp_eq_eq : ∀ {a b : Str}, lexCmp a b = .eq → a = b := by
  intro a
  induction a with
  | nil =>
    intro b h
    cases b with
    | nil => rfl
    | cons d s => exact absurd h (by simp [lexCmp])
  | cons c t ih =>
    intro b h
    cases b with
    | nil => exact absurd h (by simp [lexCmp])
    | cons d s =>
      unfold lexCmp at h
      cases hc : charCmp c d with
      | eq => rw [hc] at h; rw [charCmp_eq hc, ih h]
      | lt => rw [hc] at h; exact absurd h (by simp)
      | gt => rw [hc] at h; exact absurd h (by simp)

theorem mem_zip_self {l : List α} {p : α × α} (h : p ∈ l.zip l) : p.1 = p.2 := by
  induction l with
  | nil => exact absurd h (List.not_mem_nil p)
  | cons x xs ih =>
    rcases List.mem_cons.1 h with h1 | h1
    · rw [h1]
    · exact ih h1

theorem then_self_of_ne {o o' : Ordering} (h : o ≠ .eq) : o.then o' = o := by
  cases o with
  | lt => rfl
  | gt => rfl
  | eq => exact absurd rfl h

theorem specChain_nil (b a : Str) : specChain b a [] = compare b.length a.length :=
  rfl

theorem specChain_cons (b a : Str) (p : Str × Str) (ps : List (Str × Str)) :
    specChain b a (p :: ps) =
      (match parseI32 p.1, parseI32 p.2 with
       | some x, some y => compare y x
       | _, _ => lexCmp b a).then (specChain b a ps) :=
  rfl

theorem versionChain_self (a : Str) (ps : List (Str × Str))
    (hp : ∀ p ∈ ps, p.1 = p.2) : specChain a a ps = .eq := by
  induction ps with
  | nil => rw [specChain_nil]; exact compare_eq_iff_eq.2 rfl
  | cons p rest ih =>
    have hih := ih fun q hq => hp q (List.mem_cons_of_mem p hq)
    have hpair : p.1 = p.2 := hp p (List.mem_cons_self p rest)
    rw [specChain_cons, ← hpair]
    cases h1 : parseI32 p.1 with
    | some x =>
      show (compare x x).then (specChain a a rest) = .eq
      rw [compare_eq_iff_eq.2 (rfl : x = x)]
      exact hih
    | none =>
      show (lexCmp a a).then (specChain a a rest) = .eq
      rw [lexCmp_self]
      exact hih

theorem versionCmpGo_eq_chain (b a : Str) (ps : List (Str × Str))
    (hself : b = a → ∀ p ∈ ps, p.1 = p.2) :
    versionCmpGo b a ps = specChain b a ps := by
  induction ps with
  | nil => rfl
  | cons p rest ih =>
    have hih := ih fun hba q hq => hself hba q (List.mem_cons_of_mem p hq)
    obtain ⟨p1, p2⟩ := p
    rw [specChain_cons]
    show (match parseI32 p1, parseI32 p2 with
          | some x, some y => if x ≠ y then compare y x else versionCmpGo b a rest
          | _, _ => lexCmp b a) = _
    have fallback : lexCmp b a = (lexCmp b a).then (specChain b a rest) := by
      cases hba : lexCmp b a with
      | lt => rfl
      | gt => rfl
      | eq =>
        have hba' : b = a := lexCmp_eq_eq hba
        subst hba'
        show Ordering.eq = specChain b b rest
        exact (versionChain_self b rest
          (fun q hq => hself rfl q (List.mem_cons_of_mem (p1, p2) hq))).symm
    cases h1 : parseI32 p1 with
    | some x =>
      cases h2 : parseI32 p2 with
      | some y =>
        by_cases hxy : x = y
        · subst hxy
          show (if x ≠ x then compare x x else versionCmpGo b a rest) = _
          rw [if_neg (by simp), hih]
          show specChain b a rest = (compare x x).then (specChain b a rest)
          rw [compare_eq_iff_eq.2 (rfl : x = x)]
          rfl
        · show (if x ≠ y then compare y x else versionCmpGo b a rest) = _
          have hne : compare y x ≠ .eq := fun hc => hxy (compare_eq_iff_eq.1 hc).symm
          rw [if_pos hxy, then_self_of_ne hne]
      | none => exact fallback
    | none =>
      cases h2 : parseI32 p2 with
      | some y => exact fallback
      | none => exact fallback

/- ------------------------------------------------------------------ -/
/- C5                                                                 -/
/- ------------------------------------------------------------------ -/

/-- C5 counterexample: on the two version strings `01.x` and `1.x` the
code selects `1.x` (the fallback compares the two whole strings), while
the selection procedure described by the claim (fallback on the remaining
tails, longer string on a full tie) selects `01.x`. -/
theorem latest_version_selection_counterexample :
    get_latest_version_from_version_str ["01.x".toList, "1.x".toList] =
      some "1.x".toList ∧
    claimLatestVersion ["01.x".toList, "1.x".toList] = some "01.x".toList ∧
    ("1.x".toList : Str) ≠ "01.x".toList := by decide

/-- C5 (amended): the comparator splits on dots and compares corresponding
segments numerically descending when both parse as 32-bit integers, falls
back to the descending lexicographic comparison of the two whole version
strings when either side of a pair fails to parse, and lets the longer
string win when all compared pairs tie; over `1.2.0`, `1.10.0`, `1.9.5` it
returns `1.10.0`. -/
theorem latest_version_selection_amended :
    (∀ a b : Str, versionCmp a b = versionCmpSpec a b) ∧
    get_latest_version_from_version_str
      ["1.2.0".toList, "1.10.0".toList, "1.9.5".toList] = some "1.10.0".toList := by
  constructor
  · intro a b
    show versionCmpGo b a _ = versionCmpSpec a b
    rw [show versionCmpSpec a b =
        specChain b a ((splitOnChar '.' a).zip (splitOnChar '.' b)) from rfl]
    exact versionCmpGo_eq_chain b a _ (fun hba => by
      subst hba
      exact fun p hp => mem_zip_self hp)
  · decide

theorem lookup_hashMapInsert (m : List (Str × Str)) (k v k' : Str) :
    (hashMapInsert m k v).lookup k' = if k' = k then some v else m.lookup k' := by
  induction m with
  | nil =>
    by_cases h : k' = k
    · have hb : (k' == k) = true := beq_iff_eq.mpr h
      simp [hashMapInsert, List.lookup, hb, h]
    · have hb : (k' == k) = false := beq_eq_false_iff_ne.mpr h
      simp [hashMapInsert, List.lookup, hb, h]
  | cons p rest ih =>
    obtain ⟨k1, v1⟩ := p
    by_cases h1 : k1 = k
    · subst h1
      by_cases h : k' = k1
      · have hb : (k' == k1) = true := beq_iff_eq.mpr h
        simp [hashMapInsert, List.lookup, hb, h]
      · have hb : (k' == k1) = false := beq_eq_false_iff_ne.mpr h
        simp [hashMapInsert, List.lookup, hb, h]
    · by_cases h : k' = k1
      · have hb : (k' == k1) = true := beq_iff_eq.mpr h
        have hk : ¬ k' = k := fun hc => h1 (h.symm.trans hc)
        simp [hashMapInsert, if_neg h1, List.lookup, hb, hk]
      · have hb : (k' == k1) = false := beq_eq_false_iff_ne.mpr h
        simp [hashMapInsert, if_neg h1, List.lookup, hb, ih]

theorem evaluatorNew_lookup (overrides : List (Str × Str)) (c : Str) :
    (DependencyEvaluator.new overrides).irregulars_to_remap.lookup c =
      if c = "rest_framework".toList then some "djangorestframework".toList
      else if c = "AFQ".toList then some "pyAFQ".toList
      else overrides.lookup c := by
  show (hashMapInsert (hashMapInsert overrides "AFQ".toList "pyAFQ".toList)
      "rest_framework".toList "djangorestframework".toList).lookup c = _
  rw [lookup_hashMapInsert, lookup_hashMapInsert]

/- ------------------------------------------------------------------ -/
/- C1                                                                 -/
/- ------------------------------------------------------------------ -/

/-- C1 counterexample: `AFQ` is mapped by the built-in table (to `pyAFQ`)
and by the caller override table (to `other`), with different values, yet
the remap step — and the whole evaluator — produces the built-in value
`pyAFQ`, not the override value the claim promises. -/
theorem remap_override_precedence_counterexample :
    get_python_irregulars.lookup "AFQ".toList = some "pyAFQ".toList ∧
    [("AFQ".toList, "other".toList)].lookup "AFQ".toList = some "other".toList ∧
    "pyAFQ".toList ≠ "other".toList ∧
    (DependencyEvaluator.new [("AFQ".toList, "other".toList)]).remap "AFQ".toList =
      "pyAFQ".toList ∧
    (DependencyEvaluator.new [("AFQ".toList, "other".toList)]).evaluate
        ["AFQ".toList] [] [] =
      .value [⟨"pyAFQ".toList, [], none, none⟩] := by
  refine ⟨by decide, by decide, by decide, by decide, ?_⟩
  decide

/-- C1 (amended): on a key collision the built-in irregulars table wins
over the caller-supplied override table (the overrides only extend it with
new keys), and candidates with no mapping in either table pass through the
remap step unchanged. -/
theorem remap_builtin_precedence :
    (∀ (overrides : List (Str × Str)) (c v : Str),
      get_python_irregulars.lookup c = some v →
      (DependencyEvaluator.new overrides).remap c = v) ∧
    (∀ (overrides : List (Str × Str)) (c v : Str),
      get_python_irregulars.lookup c = none →
      overrides.lookup c = some v →
      (DependencyEvaluator.new overrides).remap c = v) ∧
    (∀ (overrides : List (Str × Str)) (c : Str),
      get_python_irregulars.lookup c = none →
      overrides.lookup c = none →
      (DependencyEvaluator.new overrides).remap c = c) := by
  have builtin_lookup : ∀ (c v : Str), get_python_irregulars.lookup c = some v →
      (c = "AFQ".toList ∧ v = "pyAFQ".toList) ∨
      (c = "rest_framework".toList ∧ v = "djangorestframework".toList) := by
    intro c v h
    by_cases h1 : c = "AFQ".toList
    · subst h1
      left
      refine ⟨rfl, ?_⟩
      have : some "pyAFQ".toList = some v := by
        rw [← h]; decide
      exact (Option.some.inj this).symm
    · by_cases h2 : c = "rest_framework".toList
      · subst h2
        right
        refine ⟨rfl, ?_⟩
        have : some "djangorestframework".toList = some v := by
          rw [← h]; decide
        exact (Option.some.inj this).symm
      · exfalso
        have hb1 : (c == "AFQ".toList) = false := beq_eq_false_iff_ne.mpr h1
        have hb2 : (c == "rest_framework".toList) = false :=
          beq_eq_false_iff_ne.mpr h2
        have hnone : get_python_irregulars.lookup c = none := by
          simp only [get_python_irregulars, List.lookup, hb1, hb2]
        rw [hnone] at h
        exact Option.noConfusion h
  have builtin_none : ∀ (c : Str), get_python_irregulars.lookup c = none →
      ¬ c = "AFQ".toList ∧ ¬ c = "rest_framework".toList := by
    intro c h
    constructor
    · intro h1; subst h1; revert h; decide
    · intro h2; subst h2; revert h; decide
  refine ⟨?_, ?_, ?_⟩
  · intro overrides c v h
    unfold DependencyEvaluator.remap
    rw [evaluatorNew_lookup]
    rcases builtin_lookup c v h with ⟨rfl, rfl⟩ | ⟨rfl, rfl⟩
    · rw [if_neg (by decide), if_pos rfl]
    · rw [if_pos rfl]
  · intro overrides c v h ho
    obtain ⟨h1, h2⟩ := builtin_none c h
    unfold DependencyEvaluator.remap
    rw [evaluatorNew_lookup, if_neg h2, if_neg h1, ho]
  · intro overrides c h ho
    obtain ⟨h1, h2⟩ := builtin_none c h
    unfold DependencyEvaluator.remap
    rw [evaluatorNew_lookup, if_neg h2, if_neg h1, ho]

/-- Witness for C1 (amended): with the override table of the
counterexample, the collided key yields the built-in value, and the
unmapped candidate `numpy` passes through unchanged. -/
theorem remap_builtin_precedence_witness :
    (DependencyEvaluator.new [("AFQ".toList, "other".toList)]).remap "AFQ".toList =
      "pyAFQ".toList ∧
    (DependencyEvaluator.new []).remap "numpy".toList = "numpy".toList :=
  ⟨remap_builtin_precedence.1 [("AFQ".toList, "other".toList)] "AFQ".toList
      "pyAFQ".toList (by decide),
   remap_builtin_precedence.2.2 [] "numpy".toList (by decide) (by decide)⟩

theorem evaluate_cons_none {self : DependencyEvaluator} {ex : List Dependency}
    {loc : List Str} {c : Str} (cands : List Str)
    (h : evalStep self ex loc c = .value none) :
    self.evaluate (c :: cands) ex loc = self.evaluate cands ex loc := by
  unfold DependencyEvaluator.evaluate
  simp only [evalCandidates, h]
  cases evalCandidates self ex loc cands with
  | panicked => rfl
  | value rs => rfl

theorem parseAll_mem : ∀ {l : List Str} {out : List Dependency} {x : Str}
    {dx : Dependency}, parseAll l = .value out → x ∈ l →
    Dependency.parse x = some dx → dx ∈ out := by
  intro l
  induction l with
  | nil => intro out x dx h hx hp; exact absurd hx (List.not_mem_nil x)
  | cons y ys ih =>
    intro out x dx h hx hp
    unfold parseAll at h
    cases hy : Dependency.parse y with
    | none => rw [hy] at h; exact Outcome.noConfusion h
    | some dy =>
      rw [hy] at h
      cases hys : parseAll ys with
      | panicked => rw [hys] at h; exact Outcome.noConfusion h
      | value ds =>
        rw [hys] at h
        obtain rfl : dy :: ds = out := Outcome.value.inj h
        rcases List.mem_cons.1 hx with rfl | hmem
        · rw [hp] at hy
          exact (Option.some.inj hy) ▸ List.mem_cons_self _ _
        · exact List.mem_cons_of_mem _ (ih hys hmem hp)

/- ------------------------------------------------------------------ -/
/- C2                                                                 -/
/- ------------------------------------------------------------------ -/

/-- C2: the evaluator applies its filters in the fixed order stdlib, local,
remap, existing.  A candidate in the stdlib set contributes nothing, even
when the remap table maps it; a candidate in the local-package set likewise;
the already-declared filter runs after remapping, on the post-remap name,
so a candidate whose remapped name matches an existing dependency by name
is dropped; and a candidate surviving all three filters contributes its
parsed post-remap name to the result. -/
theorem evaluate_fixed_filter_order :
    (∀ (self : DependencyEvaluator) (cands : List Str) (ex : List Dependency)
       (loc : List Str) (c : Str), c ∈ self.stdlib_pakages →
       self.evaluate (c :: cands) ex loc = self.evaluate cands ex loc) ∧
    (∀ (self : DependencyEvaluator) (cands : List Str) (ex : List Dependency)
       (loc : List Str) (c : Str), c ∈ loc →
       self.evaluate (c :: cands) ex loc = self.evaluate cands ex loc) ∧
    (∀ (self : DependencyEvaluator) (cands : List Str) (ex : List Dependency)
       (loc : List Str) (c : Str) (d : Dependency),
       c ∉ self.stdlib_pakages → c ∉ loc →
       Dependency.parse (self.remap c) = some d →
       depSetContains ex d = true →
       self.evaluate (c :: cands) ex loc = self.evaluate cands ex loc) ∧
    (∀ (self : DependencyEvaluator) (cands : List Str) (ex : List Dependency)
       (loc : List Str) (c : Str) (d : Dependency) (out : List Dependency),
       c ∉ self.stdlib_pakages → c ∉ loc →
       Dependency.parse (self.remap c) = some d →
       depSetContains ex d = false →
       self.evaluate (c :: cands) ex loc = .value out → d ∈ out) := by
  refine ⟨?_, ?_, ?_, ?_⟩
  · intro self cands ex loc c hc
    exact evaluate_cons_none cands (by simp [evalStep, hc])
  · intro self cands ex loc c hc
    apply evaluate_cons_none cands
    by_cases h1 : c ∈ self.stdlib_pakages <;> simp [evalStep, h1, hc]
  · intro self cands ex loc c d h1 h2 hp hex
    exact evaluate_cons_none cands (by simp [evalStep, h1, h2, hp, hex])
  · intro self cands ex loc c d out h1 h2 hp hex hval
    have hstep : evalStep self ex loc c = .value (some (self.remap c)) := by
      simp [evalStep, h1, h2, hp, hex]
    unfold DependencyEvaluator.evaluate at hval
    simp only [evalCandidates, hstep] at hval
    cases hcs : evalCandidates self ex loc cands with
    | panicked => rw [hcs] at hval; exact Outcome.noConfusion hval
    | value rs =>
      rw [hcs] at hval
      simp only [List.filterMap_cons_some] at hval
      exact parseAll_mem hval
        (List.mem_dedup.2 (List.mem_cons_self _ _)) hp

/-- Witness for C2, mirroring the four evaluator unit tests: `os` is
dropped by the stdlib filter, `mymod` by the local filter, `django`
(remapped to itself) by the existing-`Django` filter, and `AFQ` survives
as `pyAFQ`. -/
theorem evaluate_fixed_filter_order_witness :
    (DependencyEvaluator.new []).evaluate ["os".toList] [] [] =
      (DependencyEvaluator.new []).evaluate [] [] [] ∧
    (DependencyEvaluator.new []).evaluate ["mymod".toList] [] ["mymod".toList] =
      (DependencyEvaluator.new []).evaluate [] [] ["mymod".toList] ∧
    (DependencyEvaluator.new []).evaluate ["django".toList]
        [⟨"Django".toList, [], none, none⟩] [] =
      (DependencyEvaluator.new []).evaluate [] [⟨"Django".toList, [], none, none⟩] [] ∧
    (⟨"pyAFQ".toList, [], none, none⟩ : Dependency) ∈
      [(⟨"pyAFQ".toList, [], none, none⟩ : Dependency)] :=
  ⟨evaluate_fixed_filter_order.1 (DependencyEvaluator.new []) [] [] []
      "os".toList (by decide),
   evaluate_fixed_filter_order.2.1 (DependencyEvaluator.new []) [] [] ["mymod".toList]
      "mymod".toList (by decide),
   evaluate_fixed_filter_order.2.2.1 (DependencyEvaluator.new []) [] [⟨"Django".toList, [], none, none⟩] []
      "django".toList ⟨"django".toList, [], none, none⟩ (by decide) (by decide)
      (by decide) (by decide),
   evaluate_fixed_filter_order.2.2.2 (DependencyEvaluator.new []) [] [] []
      "AFQ".toList ⟨"pyAFQ".toList, [], none, none⟩
      [⟨"pyAFQ".toList, [], none, none⟩] (by decide) (by decide) (by decide)
      (by decide) (by decide)⟩

/- ------------------------------------------------------------------ -/
/- C8                                                                 -/
/- ------------------------------------------------------------------ -/

/-- C8: on input the Python parser rejects, `extract_dependencies` panics
(the `unwrap` of the parse result), and its `Err` branch — the fail result
the claim promises — is unreachable for every input. -/
theorem extract_dependencies_panics_on_bad_input :
    (∀ (pyparse : Str → Except Str (Option PyModule)) (code e : Str),
      pyparse code = .error e →
      extract_dependencies pyparse code = .panicked) ∧
    (∀ (pyparse : Str → Except Str (Option PyModule)) (code : Str) (e : IoError),
      extract_dependencies pyparse code ≠ .value (.error e)) := by
  constructor
  · intro pyparse code e h
    unfold extract_dependencies
    rw [h]
  · intro pyparse code e
    unfold extract_dependencies
    cases pyparse code with
    | error _ => simp
    | ok m => simp

/-- Witness for C8: a parser front end that rejects its input makes the
extractor panic on the text `def (`. -/
theorem extract_dependencies_panics_on_bad_input_witness :
    extract_dependencies (fun _ => .error "invalid syntax".toList) "def (".toList =
      .panicked ∧
    extract_dependencies (fun _ => .error "invalid syntax".toList) "def (".toList ≠
      .value (.error ()) :=
  ⟨extract_dependencies_panics_on_bad_input.1
      (fun _ => .error "invalid syntax".toList) "def (".toList
      "invalid syntax".toList rfl,
   extract_dependencies_panics_on_bad_input.2
      (fun _ => .error "invalid syntax".toList) "def (".toList ()⟩

/- ------------------------------------------------------------------ -/
/- C10                                                                -/
/- ------------------------------------------------------------------ -/

/-- C10: the candidate-collection loop returns its typed file-reading error
only when reading some discovered file fails; and when a file whose bytes
read successfully is not valid UTF-8 — all files before it passing through
cleanly — the loop panics (the `from_utf8(..).unwrap()`) instead of
returning a typed error. -/
theorem detect_read_error_vs_utf8_panic :
    (∀ {α : Type} (readBytes : α → Except IoError (List Nat))
       (utf8Dec : List Nat → Option Str)
       (pyparse : Str → Except Str (Option PyModule)) (files : List α),
      candidatesLoop readBytes utf8Dec pyparse files =
        .value (.error DetectEngineError.FileReadingError) →
      ∃ f ∈ files, ∃ e, readBytes f = .error e) ∧
    (∀ {α : Type} (readBytes : α → Except IoError (List Nat))
       (utf8Dec : List Nat → Option Str)
       (pyparse : Str → Except Str (Option PyModule)) (pre : List α) (f : α)
       (post : List α) (bytes : List Nat),
      (∀ g ∈ pre, ∃ b s imps, readBytes g = .ok b ∧ utf8Dec b = some s ∧
        extract_dependencies pyparse s = .value (.ok imps)) →
      readBytes f = .ok bytes → utf8Dec bytes = none →
      candidatesLoop readBytes utf8Dec pyparse (pre ++ f :: post) = .panicked) := by
  constructor
  · intro α readBytes utf8Dec pyparse files h
    induction files with
    | nil => exact absurd h (by simp [candidatesLoop])
    | cons g fs ih =>
      unfold candidatesLoop at h
      cases hr : readBytes g with
      | error e => exact ⟨g, List.mem_cons_self g fs, e, hr⟩
      | ok contents =>
        rw [hr] at h
        simp only [] at h
        cases hu : utf8Dec contents with
        | none => rw [hu] at h; exact Outcome.noConfusion h
        | some s =>
          rw [hu] at h
          simp only [] at h
          cases hx : extract_dependencies pyparse s with
          | panicked => rw [hx] at h; exact Outcome.noConfusion h
          | value r =>
            rw [hx] at h
            cases r with
            | error _ =>
              simp only [] at h
              exact absurd (Except.error.inj (Outcome.value.inj h))
                (by intro hc; exact DetectEngineError.noConfusion hc)
            | ok imports =>
              simp only [] at h
              cases hrec : candidatesLoop readBytes utf8Dec pyparse fs with
              | panicked => rw [hrec] at h; exact Outcome.noConfusion h
              | value rr =>
                rw [hrec] at h
                cases rr with
                | error e2 =>
                  simp only [] at h
                  obtain rfl : e2 = DetectEngineError.FileReadingError :=
                    Except.error.inj (Outcome.value.inj h)
                  obtain ⟨f2, hf2, e3, he3⟩ := ih hrec
                  exact ⟨f2, List.mem_cons_of_mem g hf2, e3, he3⟩
                | ok _ =>
                  simp only [] at h
                  exact absurd (Outcome.value.inj h)
                    (by intro hc; exact Except.noConfusion hc)
  · intro α readBytes utf8Dec pyparse pre f post bytes hpre hf hu
    induction pre with
    | nil =>
      simp only [List.nil_append]
      unfold candidatesLoop
      rw [hf]
      simp only []
      rw [hu]
    | cons g gs ih =>
      obtain ⟨b, s, imps, hb, hs, himps⟩ := hpre g (List.mem_cons_self g gs)
      simp only [List.cons_append]
      unfold candidatesLoop
      rw [hb]
      simp only []
      rw [hs]
      simp only []
      rw [himps]
      simp only []
      rw [ih fun g2 hg2 => hpre g2 (List.mem_cons_of_mem g hg2)]

/-- Witness for C10 with one file whose bytes read as `[0xff]` and a
decoder that rejects them: the loop panics; and on a reader that fails the
loop reports the typed reading error coming from that file. -/
theorem detect_read_error_vs_utf8_panic_witness :
    candidatesLoop (fun _ : Unit => .ok [255])
        (fun _ => none) (fun _ => .ok none) [()] = .panicked ∧
    (∃ f ∈ [()], ∃ e : IoError,
      (Except.error () : Except IoError (List Nat)) = .error e) :=
  ⟨detect_read_error_vs_utf8_panic.2 (fun _ : Unit => .ok [255])
      (fun _ => none) (fun _ => .ok none) [] () [] [255]
      (fun g hg => absurd hg (List.not_mem_nil g)) rfl rfl,
   detect_read_error_vs_utf8_panic.1 (fun _ : Unit => .error ())
      (fun _ => none) (fun _ => .ok none) [()] rfl⟩

/- ------------------------------------------------------------------ -/
/- List scanning helper lemmas for the specifier round trip           -/
/- ------------------------------------------------------------------ -/

theorem takeWhile_append_of_all {p : α → Bool} {l1 : List α} (l2 : List α)
    (h : ∀ a ∈ l1, p a = true) :
    (l1 ++ l2).takeWhile p = l1 ++ l2.takeWhile p := by
  induction l1 with
  | nil => rfl
  | cons x xs ih =>
    have hx := h x (List.mem_cons_self x xs)
    simp only [List.cons_append, List.takeWhile_cons, hx, if_true]
    rw [ih fun a ha => h a (List.mem_cons_of_mem x ha)]

theorem dropWhile_append_of_all {p : α → Bool} {l1 : List α} (l2 : List α)
    (h : ∀ a ∈ l1, p a = true) :
    (l1 ++ l2).dropWhile p = l2.dropWhile p := by
  induction l1 with
  | nil => rfl
  | cons x xs ih =>
    have hx := h x (List.mem_cons_self x xs)
    simp only [List.cons_append, List.dropWhile_cons, hx, if_true]
    exact ih fun a ha => h a (List.mem_cons_of_mem x ha)

theorem takeWhile_head_false {p : α → Bool} :
    ∀ {l : List α}, (∀ c, l.head? = some c → p c = false) → l.takeWhile p = []
  | [], _ => rfl
  | c :: t, h => by simp [List.takeWhile_cons, h c rfl]

theorem dropWhile_head_false {p : α → Bool} :
    ∀ {l : List α}, (∀ c, l.head? = some c → p c = false) → l.dropWhile p = l
  | [], _ => rfl
  | c :: t, h => by simp [List.dropWhile_cons, h c rfl]

theorem head_dropWhile_false {p : α → Bool} :
    ∀ {l : List α} {c : α}, (l.dropWhile p).head? = some c → p c = false := by
  intro l
  induction l with
  | nil => intro c h; exact absurd h (by simp)
  | cons x xs ih =>
    intro c h
    by_cases hx : p x
    · rw [List.dropWhile_cons_of_pos hx] at h
      exact ih h
    · rw [List.dropWhile_cons_of_neg hx] at h
      rcases Option.some.inj h with rfl
      exact Bool.not_eq_true _ ▸ (by simpa using hx)

theorem mem_dropWhile_imp {p : α → Bool} {l : List α} {x : α}
    (h : x ∈ l.dropWhile p) : x ∈ l :=
  (List.dropWhile_sublist p).mem h

theorem mem_trimStr {l : Str} {x : Char} (h : x ∈ trimStr l) : x ∈ l := by
  unfold trimStr at h
  rw [List.mem_reverse] at h
  have h1 := mem_dropWhile_imp h
  rw [List.mem_reverse] at h1
  exact mem_dropWhile_imp h1

theorem getLast?_dropWhile {p : α → Bool} :
    ∀ {l : List α}, l.dropWhile p ≠ [] → (l.dropWhile p).getLast? = l.getLast? := by
  intro l
  induction l with
  | nil => intro h; exact absurd rfl h
  | cons x xs ih =>
    intro h
    by_cases hx : p x
    · rw [List.dropWhile_cons_of_pos hx] at h ⊢
      rw [ih h]
      cases xs with
      | nil => exact absurd List.dropWhile_nil h
      | cons y ys => exact List.getLast?_cons_cons.symm
    · rw [List.dropWhile_cons_of_neg hx]

theorem trim_eq_self {B : Str} (hhead : ∀ c, B.head? = some c → isWs c = false)
    (hlast : ∀ c, B.getLast? = some c → isWs c = false) : trimStr B = B := by
  unfold trimStr
  rw [dropWhile_head_false hhead]
  have hrev : ∀ c, B.reverse.head? = some c → isWs c = false := by
    intro c hc
    rw [List.head?_reverse] at hc
    exact hlast c hc
  rw [dropWhile_head_false hrev, List.reverse_reverse]

theorem trimStr_head {l : Str} {c : Char} (h : (trimStr l).head? = some c) :
    isWs c = false := by
  unfold trimStr at h
  rw [List.head?_reverse] at h
  have hne : (l.dropWhile isWs).reverse.dropWhile isWs ≠ [] := by
    intro hc
    rw [hc] at h
    exact Option.noConfusion h
  rw [getLast?_dropWhile hne, List.getLast?_reverse] at h
  exact head_dropWhile_false h

theorem trimStr_last {l : Str} {c : Char} (h : (trimStr l).getLast? = some c) :
    isWs c = false := by
  unfold trimStr at h
  rw [List.getLast?_reverse] at h
  exact head_dropWhile_false h

theorem trimStr_idem (l : Str) : trimStr (trimStr l) = trimStr l :=
  trim_eq_self (fun _ hc => trimStr_head hc) (fun _ hc => trimStr_last hc)

/- ------------------------------------------------------------------ -/
/- Split and join helper lemmas                                       -/
/- ------------------------------------------------------------------ -/

theorem splitOnChar_ne_nil (c : Char) : ∀ (l : Str), splitOnChar c l ≠ []
  | [] => by simp [splitOnChar]
  | x :: xs => by
    unfold splitOnChar
    split
    · simp
    · cases h : splitOnChar c xs with
      | nil => simp
      | cons r rs => simp

theorem not_mem_of_mem_splitOnChar {c : Char} :
    ∀ {l : Str} {q : Str}, q ∈ splitOnChar c l → c ∉ q := by
  intro l
  induction l with
  | nil =>
    intro q hq
    rcases List.mem_singleton.1 hq with rfl
    exact List.not_mem_nil c
  | cons x xs ih =>
    intro q hq
    unfold splitOnChar at hq
    by_cases hx : x = c
    · rw [if_pos hx] at hq
      rcases List.mem_cons.1 hq with rfl | hmem
      · exact List.not_mem_nil c
      · exact ih hmem
    · rw [if_neg hx] at hq
      cases hs : splitOnChar c xs with
      | nil => exact absurd hs (splitOnChar_ne_nil c xs)
      | cons r rs =>
        rw [hs] at hq
        rcases List.mem_cons.1 hq with rfl | hmem
        · intro hc
          rcases List.mem_cons.1 hc with rfl | hcr
          · exact hx rfl
          · exact ih (hs ▸ List.mem_cons_self r rs) hcr
        · exact ih (hs ▸ List.mem_cons_of_mem r hmem)

theorem subset_of_mem_splitOnChar {c : Char} :
    ∀ {l : Str} {q : Str}, q ∈ splitOnChar c l → ∀ x ∈ q, x ∈ l := by
  intro l
  induction l with
  | nil =>
    intro q hq x hx
    rcases List.mem_singleton.1 hq with rfl
    exact absurd hx (List.not_mem_nil x)
  | cons y ys ih =>
    intro q hq x hx
    unfold splitOnChar at hq
    by_cases hy : y = c
    · rw [if_pos hy] at hq
      rcases List.mem_cons.1 hq with rfl | hmem
      · exact absurd hx (List.not_mem_nil x)
      · exact List.mem_cons_of_mem y (ih hmem x hx)
    · rw [if_neg hy] at hq
      cases hs : splitOnChar c ys with
      | nil => exact absurd hs (splitOnChar_ne_nil c ys)
      | cons r rs =>
        rw [hs] at hq
        rcases List.mem_cons.1 hq with rfl | hmem
        · rcases List.mem_cons.1 hx with rfl | hxr
          · exact List.mem_cons_self x ys
          · exact List.mem_cons_of_mem y
              (ih (hs ▸ List.mem_cons_self r rs) x hxr)
        · exact List.mem_cons_of_mem y (ih (hs ▸ List.mem_cons_of_mem r hmem) x hx)

theorem splitOnChar_no_sep {c : Char} :
    ∀ {x : Str}, c ∉ x → splitOnChar c x = [x] := by
  intro x
  induction x with
  | nil => intro _; rfl
  | cons y ys ih =>
    intro h
    have hy : ¬ y = c := fun hc => h (hc ▸ List.mem_cons_self y ys)
    have hys : c ∉ ys := fun hc => h (List.mem_cons_of_mem y hc)
    unfold splitOnChar
    rw [if_neg hy, ih hys]

theorem splitOnChar_append_sep {c : Char} (s : Str) :
    ∀ {x : Str}, c ∉ x → splitOnChar c (x ++ c :: s) = x :: splitOnChar c s := by
  intro x
  induction x with
  | nil =>
    intro _
    show splitOnChar c (c :: s) = [] :: splitOnChar c s
    conv_lhs => rw [splitOnChar]
    rw [if_pos rfl]
  | cons y ys ih =>
    intro h
    have hy : ¬ y = c := fun hc => h (hc ▸ List.mem_cons_self y ys)
    have hys : c ∉ ys := fun hc => h (List.mem_cons_of_mem y hc)
    show splitOnChar c (y :: (ys ++ c :: s)) = (y :: ys) :: splitOnChar c s
    conv_lhs => rw [splitOnChar]
    rw [if_neg hy, ih hys]

theorem splitOnChar_joinWithChar {c : Char} :
    ∀ {es : List Str}, es ≠ [] → (∀ e ∈ es, c ∉ e) →
      splitOnChar c (joinWithChar c es) = es := by
  intro es
  induction es with
  | nil => intro h _; exact absurd rfl h
  | cons e rest ih =>
    intro _ hall
    cases rest with
    | nil =>
      show splitOnChar c (joinWithChar c [e]) = [e]
      exact splitOnChar_no_sep (hall e (List.mem_cons_self e _))
    | cons e2 rest2 =>
      have hjoin : joinWithChar c (e :: e2 :: rest2) =
          e ++ c :: joinWithChar c (e2 :: rest2) := rfl
      rw [hjoin, splitOnChar_append_sep _ (hall e (List.mem_cons_self e _))]
      rw [ih (List.cons_ne_nil e2 rest2)
        (fun q hq => hall q (List.mem_cons_of_mem e hq))]

theorem mem_joinWithChar {c : Char} :
    ∀ {es : List Str} {x : Char}, x ∈ joinWithChar c es →
      x = c ∨ ∃ e ∈ es, x ∈ e := by
  intro es
  induction es with
  | nil => intro x hx; exact absurd hx (List.not_mem_nil x)
  | cons e rest ih =>
    intro x hx
    cases rest with
    | nil => exact Or.inr ⟨e, List.mem_cons_self e _, hx⟩
    | cons e2 rest2 =>
      have hj : joinWithChar c (e :: e2 :: rest2) =
          e ++ c :: joinWithChar c (e2 :: rest2) := rfl
      rw [hj] at hx
      rcases List.mem_append.1 hx with h1 | h1
      · exact Or.inr ⟨e, List.mem_cons_self e _, h1⟩
      · rcases List.mem_cons.1 h1 with rfl | h2
        · exact Or.inl rfl
        · rcases ih h2 with h3 | ⟨e3, he3, hxe3⟩
          · exact Or.inl h3
          · exact Or.inr ⟨e3, List.mem_cons_of_mem e he3, hxe3⟩

/- ------------------------------------------------------------------ -/
/- Canonical hash-set representative lemmas                           -/
/- ------------------------------------------------------------------ -/

theorem charCmp_swap (a b : Char) : (charCmp a b).swap = charCmp b a := by
  rcases lt_trichotomy a b with h | h | h
  · simp [charCmp, h, not_lt_of_lt h, Ordering.swap]
  · subst h
    simp [charCmp, lt_irrefl, Ordering.swap]
  · simp [charCmp, h, not_lt_of_lt h, Ordering.swap]

theorem lexCmp_swap : ∀ (a b : Str), (lexCmp a b).swap = lexCmp b a
  | [], [] => rfl
  | [], _ :: _ => rfl
  | _ :: _, [] => rfl
  | a :: as_, b :: bs => by
    show (lexCmp (a :: as_) (b :: bs)).swap = lexCmp (b :: bs) (a :: as_)
    unfold lexCmp
    rw [← charCmp_swap a b]
    cases charCmp a b with
    | eq => exact lexCmp_swap as_ bs
    | lt => rfl
    | gt => rfl

theorem insertSorted_chain {cmp : α → α → Ordering}
    (hsw : ∀ a b, (cmp a b).swap = cmp b a) (x : α) :
    ∀ {l : List α}, l.Chain' (fun a b => cmp a b ≠ .gt) →
      (insertSorted cmp x l).Chain' (fun a b => cmp a b ≠ .gt) := by
  intro l
  induction l with
  | nil => intro _; exact List.chain'_singleton x
  | cons y ys ih =>
    intro hch
    unfold insertSorted
    by_cases hxy : cmp x y = .gt
    · rw [if_pos hxy]
      have hyx : cmp y x ≠ .gt := by
        rw [← hsw x y, hxy]
        simp [Ordering.swap]
      have hch' := (List.chain'_cons'.1 hch).2
      have hins := ih hch'
      rw [List.chain'_cons']
      refine ⟨?_, hins⟩
      intro z hz
      cases hys : ys with
      | nil =>
        rw [hys] at hz
        simp only [insertSorted] at hz
        rcases Option.some.inj hz with rfl
        exact hyx
      | cons w ws =>
        rw [hys] at hz
        simp only [insertSorted] at hz
        by_cases hxw : cmp x w = .gt
        · rw [if_pos hxw] at hz
          rcases Option.some.inj hz with rfl
          have := (List.chain'_cons'.1 hch).1
          exact this w (by rw [hys]; rfl)
        · rw [if_neg hxw] at hz
          rcases Option.some.inj hz with rfl
          exact hyx
    · rw [if_neg hxy]
      rw [List.chain'_cons']
      refine ⟨?_, hch⟩
      intro z hz
      rcases Option.some.inj hz with rfl
      exact hxy

theorem rustSortBy_chain {cmp : α → α → Ordering}
    (hsw : ∀ a b, (cmp a b).swap = cmp b a) :
    ∀ (l : List α), (rustSortBy cmp l).Chain' (fun a b => cmp a b ≠ .gt)
  | [] => List.chain'_nil
  | x :: xs => insertSorted_chain hsw x (rustSortBy_chain hsw xs)

theorem rustSortBy_eq_self_of_chain {cmp : α → α → Ordering} :
    ∀ {l : List α}, l.Chain' (fun a b => cmp a b ≠ .gt) → rustSortBy cmp l = l := by
  intro l
  induction l with
  | nil => intro _; rfl
  | cons x xs ih =>
    intro hch
    show insertSorted cmp x (rustSortBy cmp xs) = x :: xs
    rw [ih (List.chain'_cons'.1 hch).2]
    cases hxs : xs with
    | nil => rfl
    | cons y ys =>
      have hxy : cmp x y ≠ .gt :=
        (List.chain'_cons'.1 hch).1 y (by rw [hxs]; rfl)
      simp only [insertSorted, if_neg hxy]

theorem mem_hashSetOfList {l : List Str} {x : Str} :
    x ∈ hashSetOfList l ↔ x ∈ l := by
  unfold hashSetOfList
  rw [mem_rustSortBy, List.mem_dedup]

theorem hashSetOfList_nodup (l : List Str) : (hashSetOfList l).Nodup :=
  ((rustSortBy_perm lexCmp l.dedup).nodup_iff).2 (List.nodup_dedup l)

theorem hashSetOfList_idem (l : List Str) :
    hashSetOfList (hashSetOfList l) = hashSetOfList l := by
  show rustSortBy lexCmp (hashSetOfList l).dedup = hashSetOfList l
  rw [List.dedup_eq_self.2 (hashSetOfList_nodup l)]
  exact rustSortBy_eq_self_of_chain (rustSortBy_chain lexCmp_swap l.dedup)

/- ------------------------------------------------------------------ -/
/- Character class facts                                              -/
/- ------------------------------------------------------------------ -/

theorem ws_cases {c : Char} (h : isWs c = true) :
    c = ' ' ∨ c = '\t' ∨ c = '\r' ∨ c = '\n' := by
  have := h
  unfold isWs Char.isWhitespace at this
  simpa [or_assoc] using this

theorem verChar_not_ws {c : Char} (h : verChar c = true) : isWs c = false := by
  by_contra hc
  rcases ws_cases (Bool.of_not_eq_false hc) with rfl | rfl | rfl | rfl <;>
    exact absurd h (by decide)

theorem verChar_ne_eqsign {c : Char} (h : verChar c = true) : c ≠ '=' :=
  fun hc => absurd (hc ▸ h) (by decide)

theorem verChar_ne_newline {c : Char} (h : verChar c = true) : c ≠ '\n' :=
  fun hc => absurd (hc ▸ h) (by decide)

theorem tilClass_cases {c : Char} (h : tilClass c = true) :
    c = '~' ∨ c = '=' ∨ c = '<' ∨ c = '>' ∨ c = '!' := by
  have := h
  unfold tilClass at this
  simpa [or_assoc] using this

theorem tilClass_not_nameChar {c : Char} (h : tilClass c = true) :
    nameChar c = false := by
  rcases tilClass_cases h with rfl | rfl | rfl | rfl | rfl <;> decide

theorem tilClass_not_ws {c : Char} (h : tilClass c = true) : isWs c = false := by
  rcases tilClass_cases h with rfl | rfl | rfl | rfl | rfl <;> decide

theorem tilClass_ne_lbrack {c : Char} (h : tilClass c = true) : c ≠ '[' :=
  fun hc => absurd (hc ▸ h) (by decide)

theorem tilClass_ne_caret {c : Char} (h : tilClass c = true) : c ≠ '^' :=
  fun hc => absurd (hc ▸ h) (by decide)

theorem opShape_head {op : Str} (h : Dependency.OpShape op) :
    ∃ c rest, op = c :: rest ∧ nameChar c = false ∧ isWs c = false ∧ c ≠ '[' := by
  rcases h with ⟨c, htil, rfl | rfl⟩ | rfl | rfl | rfl
  · exact ⟨c, _, rfl, tilClass_not_nameChar htil, tilClass_not_ws htil,
      tilClass_ne_lbrack htil⟩
  · exact ⟨c, _, rfl, tilClass_not_nameChar htil, tilClass_not_ws htil,
      tilClass_ne_lbrack htil⟩
  · exact ⟨'<', _, rfl, by decide, by decide, by decide⟩
  · exact ⟨'>', _, rfl, by decide, by decide, by decide⟩
  · exact ⟨'^', _, rfl, by decide, by decide, by decide⟩

/- ------------------------------------------------------------------ -/
/- Parse component inversion lemmas                                   -/
/- ------------------------------------------------------------------ -/

theorem parse_inv {s : Str} {d : Dependency} (h : Dependency.parse s = some d) :
    s.takeWhile nameChar ≠ [] ∧
    d = { name := s.takeWhile nameChar
          extras :=
            Dependency.extrasOf (Dependency.parseExtrasRaw (s.dropWhile nameChar)).1
          version_spec :=
            (Dependency.parseVersionGroup
              (Dependency.parseExtrasRaw (s.dropWhile nameChar)).2).map Prod.fst
          markers := Dependency.parseMarkerPart
            (match Dependency.parseVersionGroup
                (Dependency.parseExtrasRaw (s.dropWhile nameChar)).2 with
             | some (_, r) => r
             | none => (Dependency.parseExtrasRaw (s.dropWhile nameChar)).2) } := by
  unfold Dependency.parse at h
  simp only [] at h
  split at h
  · exact Option.noConfusion h
  next hne => exact ⟨hne, (Option.some.inj h).symm⟩

theorem parseExtrasRaw_inv {r p rest : Str}
    (h : Dependency.parseExtrasRaw r = (some p, rest)) :
    ∃ t, r = '[' :: t ∧ p = t.takeWhile (fun c => c ≠ ']') ∧ ']' ∈ t ∧
      '\n' ∉ p ∧ rest = t.drop (p.length + 1) := by
  unfold Dependency.parseExtrasRaw at h
  split at h
  next t =>
    simp only [] at h
    split at h
    next hcond =>
      have h1 : some (t.takeWhile fun c => c ≠ ']') = some p := congrArg Prod.fst h
      have h2 : t.drop ((t.takeWhile fun c => c ≠ ']').length + 1) = rest :=
        congrArg Prod.snd h
      have hp : p = t.takeWhile fun c => c ≠ ']' := (Option.some.inj h1).symm
      exact ⟨t, rfl, hp, hcond.1, hp ▸ hcond.2, by rw [← h2, ← hp]⟩
    next => exact absurd (congrArg Prod.fst h) (by simp)
  next => exact absurd (congrArg Prod.fst h) (by simp)

theorem parseExtrasRaw_none_snd {r : Str} :
    ∀ {rest : Str}, Dependency.parseExtrasRaw r = (none, rest) → rest = r := by
  intro rest h
  unfold Dependency.parseExtrasRaw at h
  split at h
  next t =>
    simp only [] at h
    split at h
    next =>
      exact absurd (congrArg Prod.fst h) (by simp)
    next =>
      have h2 : '[' :: t = rest := congrArg Prod.snd h
      exact h2.symm
  next =>
    have h2 : r = rest := congrArg Prod.snd h
    exact h2.symm

theorem firstM_inv {f : α → Option β} :
    ∀ {l : List α} {b : β}, l.firstM f = some b → ∃ a ∈ l, f a = some b := by
  intro l
  induction l with
  | nil => intro b h; exact absurd h (by simp [List.firstM, failure])
  | cons x xs ih =>
    intro b h
    show ∃ a ∈ x :: xs, f a = some b
    have hfm : (f x <|> xs.firstM f) = some b := h
    cases hfx : f x with
    | some v =>
      rw [hfx, Option.some_orElse] at hfm
      exact ⟨x, List.mem_cons_self x xs, hfx.trans hfm⟩
    | none =>
      rw [hfx, Option.none_orElse] at hfm
      obtain ⟨a, ha, hfa⟩ := ih hfm
      exact ⟨a, List.mem_cons_of_mem x ha, hfa⟩

theorem tryVer_inv {op r op' ver rest : Str}
    (h : Dependency.tryVer op r = some ((op', ver), rest)) :
    op' = op ∧ ver = (r.dropWhile isWs).takeWhile verChar ∧ ver ≠ [] ∧
      rest = (r.dropWhile isWs).drop ver.length := by
  unfold Dependency.tryVer at h
  simp only [] at h
  split at h
  · exact Option.noConfusion h
  next hne =>
    simp only [Option.some.injEq, Prod.mk.injEq] at h
    obtain ⟨⟨h1, h2⟩, h3⟩ := h
    exact ⟨h1.symm, h2.symm, h2 ▸ hne, by rw [← h3, h2]⟩

theorem opSplit_shape {w q rr : Str} (h : (q, rr) ∈ Dependency.opSplit w) :
    Dependency.OpShape q := by
  unfold Dependency.opSplit at h
  split at h
  · exact absurd h (List.not_mem_nil _)
  next c rest =>
    rcases List.mem_append.1 h with h1 | h1
    · rcases List.mem_append.1 h1 with h2 | h2
      · by_cases htil : tilClass c
        · rw [if_pos htil] at h2
          unfold Dependency.opSplitTil at h2
          split at h2
          · rcases List.mem_cons.1 h2 with heq | h3
            · rcases Prod.mk.injEq .. ▸ heq with ⟨rfl, rfl⟩
              exact Or.inl ⟨c, htil, Or.inl rfl⟩
            · rcases List.mem_singleton.1 h3 with heq
              rcases Prod.mk.injEq .. ▸ heq with ⟨rfl, rfl⟩
              exact Or.inl ⟨c, htil, Or.inr rfl⟩
          · rcases List.mem_singleton.1 h2 with heq
            rcases Prod.mk.injEq .. ▸ heq with ⟨rfl, rfl⟩
            exact Or.inl ⟨c, htil, Or.inr rfl⟩
          · exact absurd h2 (List.not_mem_nil _)
        · rw [if_neg htil] at h2
          exact absurd h2 (List.not_mem_nil _)
      · split at h2
        next hlg =>
          rcases List.mem_singleton.1 h2 with heq
          rcases Prod.mk.injEq .. ▸ heq with ⟨rfl, rfl⟩
          rcases hlg with rfl | rfl
          · exact Or.inr (Or.inl rfl)
          · exact Or.inr (Or.inr (Or.inl rfl))
        next => exact absurd h2 (List.not_mem_nil _)
    · split at h1
      next hcar =>
        rcases List.mem_singleton.1 h1 with heq
        rcases Prod.mk.injEq .. ▸ heq with ⟨rfl, rfl⟩
        subst hcar
        exact Or.inr (Or.inr (Or.inr rfl))
      next => exact absurd h1 (List.not_mem_nil _)

theorem parseVersionGroup_inv {r2 op ver rest : Str}
    (h : Dependency.parseVersionGroup r2 = some ((op, ver), rest)) :
    Dependency.OpShape op ∧ ver ≠ [] ∧ ∀ c ∈ ver, verChar c = true := by
  unfold Dependency.parseVersionGroup at h
  obtain ⟨⟨q, rr⟩, hmem, htv⟩ := firstM_inv h
  obtain ⟨hop, hver, hne, _⟩ := tryVer_inv htv
  subst hop
  refine ⟨opSplit_shape hmem, hne, ?_⟩
  intro c hc
  rw [hver] at hc
  exact List.mem_takeWhile_imp hc

theorem markerOf_shape {u m : Str} (h : Dependency.markerOf u = some m) :
    Dependency.MShape m := by
  unfold Dependency.markerOf at h
  simp only [] at h
  split at h
  next hd tl heq =>
    have hm : m = (u.dropWhile isWs).takeWhile (fun c => c ≠ '\n') :=
      (Option.some.inj h).symm
    rw [heq] at hm
    have hhd : isWs hd = false := head_dropWhile_false (by rw [heq]; rfl)
    have hhdn : hd ≠ '\n' := fun hc => absurd (hc ▸ hhd) (by decide)
    have hm2 : m = hd :: tl.takeWhile (fun c => c ≠ '\n') := by
      rw [hm, List.takeWhile_cons, if_pos (by simpa using hhdn)]
    refine Or.inl ⟨hd, _, hm2, hhd, ?_⟩
    intro hc
    rw [hm] at hc
    have := List.mem_takeWhile_imp hc
    simp at this
  next heq =>
    split at h
    · exact Option.noConfusion h
    next c t heq2 =>
      rcases Option.some.inj h with rfl
      have hcn : (fun c => decide (c = '\n')) c = false :=
        head_dropWhile_false (p := fun c => decide (c = '\n')) (by rw [heq2]; rfl)
      have hcn' : c ≠ '\n' := by simpa using hcn
      have hcu : c ∈ u := by
        have h1 : c ∈ u.reverse.dropWhile (fun c => decide (c = '\n')) := by
          rw [heq2]; exact List.mem_cons_self c t
        exact List.mem_reverse.1 (mem_dropWhile_imp h1)
      have hallws : ∀ x ∈ u, isWs x = true := List.dropWhile_eq_nil_iff.1 heq
      exact Or.inr ⟨c, rfl, hallws c hcu, hcn'⟩

theorem parseMarkerPart_inv {r3 m : Str}
    (h : Dependency.parseMarkerPart r3 = some m) : Dependency.MShape m := by
  unfold Dependency.parseMarkerPart at h
  split at h
  · exact markerOf_shape h
  · exact Option.noConfusion h

/- ------------------------------------------------------------------ -/
/- Round-trip computation lemmas                                      -/
/- ------------------------------------------------------------------ -/

theorem firstM_cons_eq {f : α → Option β} (x : α) (xs : List α) :
    (x :: xs).firstM f = (f x <|> xs.firstM f) := rfl

theorem opSplit_cons (c : Char) (rest : Str) :
    Dependency.opSplit (c :: rest) =
      (if tilClass c then Dependency.opSplitTil c rest else []) ++
      (if c = '<' ∨ c = '>' then [([c], rest)] else []) ++
      (if c = '^' then [([c], rest)] else []) := rfl

theorem opSplitTil_eqeq (c : Char) (r : Str) :
    Dependency.opSplitTil c ('=' :: '=' :: r) =
      [([c, '=', '='], r), ([c, '='], '=' :: r)] := rfl

theorem opSplitTil_eq_ne (c : Char) {v0 : Char} (h : ¬ v0 = '=') (r : Str) :
    Dependency.opSplitTil c ('=' :: v0 :: r) = [([c, '='], v0 :: r)] := by
  unfold Dependency.opSplitTil
  split
  next heq =>
    exact absurd (List.cons.inj (List.cons.inj heq).2).1 h
  next heq =>
    rw [← (List.cons.inj heq).2]
  next h1 h2 =>
    exact absurd rfl (h2 (v0 :: r))

theorem opSplitTil_ne (c : Char) {v0 : Char} (h : ¬ v0 = '=') (r : Str) :
    Dependency.opSplitTil c (v0 :: r) = [] := by
  unfold Dependency.opSplitTil
  split
  next heq => exact absurd (List.cons.inj heq).1 h
  next heq => exact absurd (List.cons.inj heq).1 h
  next => rfl

theorem tryVer_compute {op ver mp : Str} (hver : ver ≠ [])
    (hvc : ∀ c ∈ ver, verChar c = true)
    (hmp : mp = [] ∨ ∃ u, mp = ';' :: u) :
    Dependency.tryVer op (ver ++ mp) = some ((op, ver), mp) := by
  have hdrop : (ver ++ mp).dropWhile isWs = ver ++ mp := by
    cases ver with
    | nil => exact absurd rfl hver
    | cons v0 vr =>
      apply dropWhile_head_false
      intro x hx
      simp only [List.cons_append, List.head?_cons] at hx
      obtain rfl := Option.some.inj hx
      exact verChar_not_ws (hvc _ (List.mem_cons_self _ _))
  have htake : (ver ++ mp).takeWhile verChar = ver := by
    rw [takeWhile_append_of_all mp hvc]
    have hmp0 : mp.takeWhile verChar = [] := by
      apply takeWhile_head_false
      intro c hc
      rcases hmp with rfl | ⟨u, rfl⟩
      · exact absurd hc (by simp)
      · rcases Option.some.inj hc with rfl
        decide
    rw [hmp0, List.append_nil]
  unfold Dependency.tryVer
  simp only [hdrop, htake]
  rw [if_neg hver]
  rw [List.drop_left]

theorem parseVersionGroup_compute {op ver mp : Str} (hop : Dependency.OpShape op)
    (hver : ver ≠ []) (hvc : ∀ c ∈ ver, verChar c = true)
    (hmp : mp = [] ∨ ∃ u, mp = ';' :: u) :
    Dependency.parseVersionGroup (op ++ ver ++ mp) = some ((op, ver), mp) := by
  obtain ⟨v0, vrest, rfl⟩ : ∃ v0 vrest, ver = v0 :: vrest := by
    cases ver with
    | nil => exact absurd rfl hver
    | cons v0 vrest => exact ⟨v0, vrest, rfl⟩
  have hv0 : verChar v0 = true := hvc v0 (List.mem_cons_self v0 vrest)
  have hv0eq : ¬ v0 = '=' := verChar_ne_eqsign hv0
  have hdropall : (op ++ (v0 :: vrest) ++ mp).dropWhile isWs =
      op ++ (v0 :: vrest) ++ mp := by
    apply dropWhile_head_false
    obtain ⟨c, rest, rfl, _, hws, _⟩ := opShape_head hop
    intro x hx
    simp only [List.cons_append, List.head?_cons] at hx
    obtain rfl := Option.some.inj hx
    exact hws
  have htv : Dependency.tryVer op (v0 :: (vrest ++ mp)) =
      some ((op, v0 :: vrest), mp) := by
    have := @tryVer_compute op (v0 :: vrest) mp hver hvc hmp
    simpa only [List.cons_append] using this
  unfold Dependency.parseVersionGroup
  rw [hdropall]
  rcases hop with ⟨c, htil, rfl | rfl⟩ | rfl | rfl | rfl
  · -- op = [c, '=', '=']
    simp only [List.cons_append, List.nil_append]
    rw [opSplit_cons, if_pos htil, opSplitTil_eqeq]
    simp only [List.cons_append, List.nil_append]
    rw [firstM_cons_eq, htv, Option.some_orElse]
  · -- op = [c, '=']
    simp only [List.cons_append, List.nil_append]
    rw [opSplit_cons, if_pos htil, opSplitTil_eq_ne c hv0eq]
    simp only [List.cons_append, List.nil_append]
    rw [firstM_cons_eq, htv, Option.some_orElse]
  · -- op = ['<']
    simp only [List.cons_append, List.nil_append]
    rw [opSplit_cons, if_pos (by decide : tilClass '<' = true),
      opSplitTil_ne '<' hv0eq, if_pos (Or.inl rfl : '<' = '<' ∨ '<' = '>'),
      if_neg (by decide : ¬ '<' = '^')]
    simp only [List.nil_append, List.append_nil]
    rw [firstM_cons_eq, htv, Option.some_orElse]
  · -- op = ['>']
    simp only [List.cons_append, List.nil_append]
    rw [opSplit_cons, if_pos (by decide : tilClass '>' = true),
      opSplitTil_ne '>' hv0eq, if_pos (Or.inr rfl : '>' = '<' ∨ '>' = '>'),
      if_neg (by decide : ¬ '>' = '^')]
    simp only [List.nil_append, List.append_nil]
    rw [firstM_cons_eq, htv, Option.some_orElse]
  · -- op = ['^']
    simp only [List.cons_append, List.nil_append]
    rw [opSplit_cons, if_neg (by decide : ¬ tilClass '^' = true),
      if_neg (by decide : ¬ ('^' = '<' ∨ '^' = '>')),
      if_pos (rfl : '^' = '^')]
    simp only [List.nil_append]
    rw [firstM_cons_eq, htv, Option.some_orElse]

theorem parseVersionGroup_marker_none {mp : Str}
    (hmp : mp = [] ∨ ∃ u, mp = ';' :: u) :
    Dependency.parseVersionGroup mp = none := by
  rcases hmp with rfl | ⟨u, rfl⟩
  · rfl
  · rfl

theorem markerOf_roundtrip {m : Str} (h : Dependency.MShape m) :
    Dependency.markerOf (' ' :: m) = some m := by
  rcases h with ⟨c, cs, rfl, hc, hnl⟩ | ⟨c, rfl, hws, hne⟩
  · unfold Dependency.markerOf
    have hdrop : (' ' :: c :: cs).dropWhile isWs = c :: cs := by
      rw [List.dropWhile_cons_of_pos (by decide : isWs ' ' = true),
        List.dropWhile_cons_of_neg (by simp [hc])]
    simp only [hdrop]
    have htake : (c :: cs).takeWhile (fun x => x ≠ '\n') = c :: cs :=
      List.takeWhile_eq_self_iff.2 (fun x hx => by
        simp only [ne_eq, decide_eq_true_eq]
        intro hxn
        exact hnl (hxn ▸ hx))
    rw [htake]
  · rcases ws_cases hws with rfl | rfl | rfl | rfl
    · decide
    · decide
    · decide
    · exact absurd rfl hne

theorem parseMarkerPart_semi {m : Str} (h : Dependency.MShape m) :
    Dependency.parseMarkerPart (';' :: ' ' :: m) = some m := by
  unfold Dependency.parseMarkerPart
  have hdrop : (';' :: ' ' :: m).dropWhile isWs = ';' :: ' ' :: m :=
    List.dropWhile_cons_of_neg (by decide)
  rw [hdrop]
  exact markerOf_roundtrip h

theorem extras_elem_facts {raw : Option Str} {e : Str}
    (hnl : ∀ p, raw = some p → '\n' ∉ p ∧ p = p.takeWhile (fun c => c ≠ ']'))
    (he : e ∈ Dependency.extrasOf raw) :
    trimStr e = e ∧ ',' ∉ e ∧ ']' ∉ e ∧ '\n' ∉ e := by
  cases raw with
  | none => exact absurd he (List.not_mem_nil e)
  | some p =>
    obtain ⟨hpn, hpt⟩ := hnl p rfl
    have he2 : e ∈ (splitOnChar ',' p).map trimStr :=
      mem_hashSetOfList.1 he
    obtain ⟨q, hq, rfl⟩ := List.mem_map.1 he2
    have hsubq : ∀ x ∈ trimStr q, x ∈ p := fun x hx =>
      subset_of_mem_splitOnChar hq x (mem_trimStr hx)
    refine ⟨trimStr_idem q, ?_, ?_, ?_⟩
    · intro hc
      exact not_mem_of_mem_splitOnChar hq (mem_trimStr hc)
    · intro hc
      have := List.mem_takeWhile_imp (hpt ▸ hsubq ']' hc)
      simp at this
    · intro hc
      exact hpn (hsubq '\n' hc)

theorem extrasOf_canon (raw : Option Str) :
    hashSetOfList (Dependency.extrasOf raw) = Dependency.extrasOf raw := by
  cases raw with
  | none => rfl
  | some p => exact hashSetOfList_idem _
theorem parseExtrasRaw_not_lbrack {r : Str} (h : ∀ t, r ≠ '[' :: t) :
    Dependency.parseExtrasRaw r = (none, r) := by
  unfold Dependency.parseExtrasRaw
  split
  next t => exact absurd rfl (h t)
  next => rfl

theorem parseExtrasRaw_compute {inner rest : Str} (hin1 : ']' ∉ inner)
    (hin2 : '\n' ∉ inner) :
    Dependency.parseExtrasRaw ('[' :: (inner ++ ']' :: rest)) =
      (some inner, rest) := by
  have htake : (inner ++ ']' :: rest).takeWhile (fun c => c ≠ ']') = inner := by
    rw [takeWhile_append_of_all (']' :: rest)
      (fun a ha => by simp; exact fun hc => hin1 (hc ▸ ha))]
    rw [takeWhile_head_false (fun c hc => by
      rcases Option.some.inj hc with rfl
      simp)]
    rw [List.append_nil]
  unfold Dependency.parseExtrasRaw
  simp only [htake]
  rw [if_pos ⟨List.mem_append.2 (Or.inr (List.mem_cons_self ']' rest)), hin2⟩]
  have hdrop : (inner ++ ']' :: rest).drop (inner.length + 1) = rest := by
    rw [← List.drop_drop, List.drop_left]
    rfl
  rw [hdrop]

theorem extrasOf_join {es : List Str} (hne : es ≠ [])
    (hex : ∀ e ∈ es, trimStr e = e ∧ ',' ∉ e)
    (hcanon : hashSetOfList es = es) :
    Dependency.extrasOf (some (joinWithChar ',' es)) = es := by
  show hashSetOfList ((splitOnChar ',' (joinWithChar ',' es)).map trimStr) = es
  rw [splitOnChar_joinWithChar hne (fun e he => (hex e he).2)]
  have hmap : es.map trimStr = es :=
    List.map_congr_left (fun e he => (hex e he).1) |>.trans (List.map_id es)
  rw [hmap, hcanon]

theorem parse_fmt_core (nm : Str) (es : List Str) (vs : Option (Str × Str))
    (mk : Option Str) (B C : Str)
    (hn1 : nm ≠ []) (hn2 : ∀ c ∈ nm, nameChar c = true)
    (hex : ∀ e ∈ es, trimStr e = e ∧ ',' ∉ e ∧ ']' ∉ e ∧ '\n' ∉ e)
    (hcanon : hashSetOfList es = es)
    (hBC_head : ∀ c, (B ++ C).head? = some c → nameChar c = false ∧ c ≠ '[')
    (hvg : Dependency.parseVersionGroup (B ++ C) =
      match vs with | some v => some ((v.1, v.2), C) | none => none)
    (hBnil : vs = none → B = [])
    (hCmk : Dependency.parseMarkerPart C = mk) :
    Dependency.parse
      (nm ++ (if es = [] then [] else '[' :: joinWithChar ',' es ++ [']']) ++
        B ++ C) = some ⟨nm, es, vs, mk⟩ := by
  have hBC_notname : ∀ c, (B ++ C).head? = some c → nameChar c = false :=
    fun c hc => (hBC_head c hc).1
  have hBC_notlb : ∀ t, B ++ C ≠ '[' :: t := by
    intro t hc
    have : ('[' :: t : Str).head? = some '[' := rfl
    exact absurd rfl (hBC_head '[' (hc ▸ this)).2
  cases es with
  | nil =>
    rw [if_pos rfl, List.append_nil, List.append_assoc]
    unfold Dependency.parse
    simp only []
    rw [takeWhile_append_of_all (B ++ C) hn2,
      takeWhile_head_false hBC_notname, List.append_nil,
      dropWhile_append_of_all (B ++ C) hn2,
      dropWhile_head_false hBC_notname]
    rw [if_neg hn1]
    rw [parseExtrasRaw_not_lbrack hBC_notlb]
    simp only []
    rw [hvg]
    cases vs with
    | some v =>
      simp only []
      rw [hCmk]
      rfl
    | none =>
      simp only []
      rw [hBnil rfl, List.nil_append, hCmk]
      rfl
  | cons e0 es' =>
    have hjoin_r : ']' ∉ joinWithChar ',' (e0 :: es') := by
      intro hc
      rcases mem_joinWithChar hc with hc1 | ⟨e, he, hce⟩
      · exact absurd hc1 (by decide)
      · exact (hex e he).2.2.1 hce
    have hjoin_n : '\n' ∉ joinWithChar ',' (e0 :: es') := by
      intro hc
      rcases mem_joinWithChar hc with hc1 | ⟨e, he, hce⟩
      · exact absurd hc1 (by decide)
      · exact (hex e he).2.2.2 hce
    rw [if_neg (List.cons_ne_nil e0 es')]
    have hshape : nm ++ ('[' :: joinWithChar ',' (e0 :: es') ++ [']']) ++ B ++ C =
        nm ++ ('[' :: (joinWithChar ',' (e0 :: es') ++ ']' :: (B ++ C))) := by
      simp only [List.cons_append, List.append_assoc, List.singleton_append,
        List.nil_append]
    rw [hshape]
    unfold Dependency.parse
    simp only []
    have hlb_head : ∀ c : Char,
        ('[' :: (joinWithChar ',' (e0 :: es') ++ ']' :: (B ++ C)) : Str).head? =
          some c → nameChar c = false := by
      intro c hc
      rcases Option.some.inj hc with rfl
      decide
    rw [takeWhile_append_of_all _ hn2, takeWhile_head_false hlb_head,
      List.append_nil, dropWhile_append_of_all _ hn2,
      dropWhile_head_false hlb_head]
    rw [if_neg hn1]
    rw [parseExtrasRaw_compute hjoin_r hjoin_n]
    simp only []
    rw [extrasOf_join (List.cons_ne_nil e0 es')
      (fun e he => ⟨(hex e he).1, (hex e he).2.1⟩) hcanon]
    rw [hvg]
    cases vs with
    | some v =>
      simp only []
      rw [hCmk]
      rfl
    | none =>
      simp only []
      rw [hBnil rfl, List.nil_append, hCmk]
      rfl

theorem parse_fmt_of_wf (d : Dependency)
    (hn1 : d.name ≠ []) (hn2 : ∀ c ∈ d.name, nameChar c = true)
    (hex : ∀ e ∈ d.extras, trimStr e = e ∧ ',' ∉ e ∧ ']' ∉ e ∧ '\n' ∉ e)
    (hcanon : hashSetOfList d.extras = d.extras)
    (hvs : ∀ op ver, d.version_spec = some (op, ver) →
      Dependency.OpShape op ∧ ver ≠ [] ∧ (∀ c ∈ ver, verChar c = true))
    (hmk : ∀ m, d.markers = some m → Dependency.MShape m) :
    Dependency.parse (Dependency.fmt d) = some d := by
  obtain ⟨nm, es, vs, mk⟩ := d
  simp only [Dependency.name] at hn1 hn2
  simp only [Dependency.extras] at hex hcanon
  simp only [Dependency.version_spec] at hvs
  simp only [Dependency.markers] at hmk
  cases vs with
  | some v =>
    obtain ⟨op, ver⟩ := v
    obtain ⟨hsh, hvne, hvc⟩ := hvs op ver rfl
    obtain ⟨c0, r0, hop, hnc, _, hlb⟩ := opShape_head hsh
    cases mk with
    | some m =>
      refine parse_fmt_core nm es (some (op, ver)) (some m) (op ++ ver)
        (';' :: ' ' :: m) hn1 hn2 hex hcanon ?_ ?_ (fun hv => by exact absurd hv (by simp)) ?_
      · intro c hc
        rw [hop] at hc
        simp only [List.cons_append, List.head?_cons] at hc
        rcases Option.some.inj hc with rfl
        exact ⟨hnc, hlb⟩
      · exact parseVersionGroup_compute hsh hvne hvc (Or.inr ⟨' ' :: m, rfl⟩)
      · exact parseMarkerPart_semi (hmk m rfl)
    | none =>
      refine parse_fmt_core nm es (some (op, ver)) none (op ++ ver) []
        hn1 hn2 hex hcanon ?_ ?_ (fun hv => by exact absurd hv (by simp)) rfl
      · intro c hc
        rw [hop] at hc
        simp only [List.cons_append, List.head?_cons] at hc
        rcases Option.some.inj hc with rfl
        exact ⟨hnc, hlb⟩
      · exact parseVersionGroup_compute hsh hvne hvc (Or.inl rfl)
  | none =>
    cases mk with
    | some m =>
      refine parse_fmt_core nm es none (some m) [] (';' :: ' ' :: m)
        hn1 hn2 hex hcanon ?_ ?_ (fun _ => rfl) ?_
      · intro c hc
        simp only [List.nil_append, List.head?_cons] at hc
        rcases Option.some.inj hc with rfl
        exact ⟨by decide, by decide⟩
      · exact parseVersionGroup_marker_none (Or.inr ⟨' ' :: m, rfl⟩)
      · exact parseMarkerPart_semi (hmk m rfl)
    | none =>
      refine parse_fmt_core nm es none none [] []
        hn1 hn2 hex hcanon ?_ ?_ (fun _ => rfl) rfl
      · intro c hc
        exact absurd hc (by simp)
      · exact parseVersionGroup_marker_none (Or.inl rfl)

/- ------------------------------------------------------------------ -/
/- C6                                                                 -/
/- ------------------------------------------------------------------ -/

/-- C6: parsing the string produced by serializing any specifier that the
program can hold (every specifier value is constructed by `parse` — the
fields are private and every construction site in the source goes through
`Dependency::parse`) succeeds and yields a specifier equal in every field
to the original. -/
theorem specifier_format_roundtrip :
    ∀ (s : Str) (d : Dependency), Dependency.parse s = some d →
      Dependency.parse (Dependency.fmt d) = some d := by
  intro s d hparse
  obtain ⟨hne, rfl⟩ := parse_inv hparse
  rcases hpe : Dependency.parseExtrasRaw (s.dropWhile nameChar) with ⟨raw, rest2⟩
  simp only [hpe]
  apply parse_fmt_of_wf
  · exact hne
  · exact fun c hc => List.mem_takeWhile_imp hc
  · intro e he
    simp only [Dependency.extras] at he
    refine extras_elem_facts ?_ he
    intro p hp
    subst hp
    obtain ⟨t, _, hpt, _, hnp, _⟩ := parseExtrasRaw_inv hpe
    refine ⟨hnp, ?_⟩
    refine (List.takeWhile_eq_self_iff.2 ?_).symm
    intro x hx
    rw [hpt] at hx
    exact List.mem_takeWhile_imp (p := fun c => decide (c ≠ ']')) hx
  · simp only [Dependency.extras]
    exact extrasOf_canon raw
  · intro op ver hvs
    simp only [Dependency.version_spec] at hvs
    rcases hvg : Dependency.parseVersionGroup rest2 with _ | ⟨⟨op', ver'⟩, r3⟩
    · rw [hvg] at hvs
      exact absurd hvs (by simp)
    · rw [hvg] at hvs
      simp only [Option.map_some'] at hvs
      rcases Option.some.inj hvs with h2
      obtain ⟨rfl, rfl⟩ : op' = op ∧ ver' = ver := by
        exact ⟨congrArg Prod.fst h2, congrArg Prod.snd h2⟩
      exact parseVersionGroup_inv hvg
  · intro m hm
    simp only [Dependency.markers] at hm
    exact parseMarkerPart_inv hm

/-- Witness for C6 at the concrete declaration `a[b]>=1.0; m`. -/
theorem specifier_format_roundtrip_witness :
    Dependency.parse
        (Dependency.fmt ⟨"a".toList, ["b".toList],
          some (">=".toList, "1.0".toList), some "m".toList⟩) =
      some ⟨"a".toList, ["b".toList], some (">=".toList, "1.0".toList),
        some "m".toList⟩ :=
  specifier_format_roundtrip "a[b]>=1.0; m".toList
    ⟨"a".toList, ["b".toList], some (">=".toList, "1.0".toList),
      some "m".toList⟩ (by decide)

theorem digitDot_verChar {v : Str}
    (h : v.all (fun c => c.isDigit || c = '.') = true) :
    ∀ c ∈ v, verChar c = true := by
  intro c hc
  have hcd := List.all_eq_true.1 h c hc
  have hcd2 : c.isDigit = true ∨ c = '.' := by simpa using hcd
  rcases hcd2 with hd | rfl
  · simp [verChar, hd]
  · decide

theorem parse_pin {name v : Str} (hn1 : name ≠ [])
    (hn2 : ∀ c ∈ name, nameChar c = true)
    (hv : ∀ c ∈ v, verChar c = true) :
    Dependency.parse (name ++ '~' :: '=' :: v) =
      some ⟨name, [], if v = [] then none else some (['~', '='], v), none⟩ := by
  have hhead : ∀ c : Char, ('~' :: '=' :: v : Str).head? = some c →
      nameChar c = false := by
    intro c hc
    rcases Option.some.inj hc with rfl
    decide
  have hnotlb : ∀ t, ('~' :: '=' :: v : Str) ≠ '[' :: t := by
    intro t hc
    exact absurd (List.cons.inj hc).1 (by decide)
  unfold Dependency.parse
  simp only []
  rw [takeWhile_append_of_all _ hn2, takeWhile_head_false hhead,
    List.append_nil, dropWhile_append_of_all _ hn2, dropWhile_head_false hhead]
  rw [if_neg hn1]
  rw [parseExtrasRaw_not_lbrack hnotlb]
  simp only []
  cases v with
  | nil =>
    rw [show Dependency.parseVersionGroup ('~' :: '=' :: ([] : Str)) = none
      from rfl]
    rfl
  | cons v0 vr =>
    have hvg : Dependency.parseVersionGroup ('~' :: '=' :: (v0 :: vr)) =
        some ((['~', '='], v0 :: vr), []) := by
      have := @parseVersionGroup_compute ['~', '='] (v0 :: vr) []
        (Or.inl ⟨'~', by decide, Or.inr rfl⟩)
        (List.cons_ne_nil v0 vr) hv (Or.inl rfl)
      simpa using this
    rw [hvg]
    rw [if_neg (List.cons_ne_nil v0 vr)]
    rfl

/- ------------------------------------------------------------------ -/
/- C7                                                                 -/
/- ------------------------------------------------------------------ -/

/-- C7 counterexample: resolving `pandas[excel]` against an index that
lists `pandas-2.1.3.tar.gz` yields `pandas~=2.1.3` with an empty extras
set — the original extra `excel` is not carried over. -/
theorem resolve_drops_extras_counterexample :
    Dependency.parse "pandas[excel]".toList =
      some ⟨"pandas".toList, ["excel".toList], none, none⟩ ∧
    (PackageResolver.new [] none).resolve netPandas
        ⟨"pandas".toList, ["excel".toList], none, none⟩ =
      .value (.ok ⟨"pandas".toList, [],
        some ("~=".toList, "2.1.3".toList), none⟩) ∧
    (⟨"pandas".toList, [], some ("~=".toList, "2.1.3".toList), none⟩ :
        Dependency).extras ≠
      (⟨"pandas".toList, ["excel".toList], none, none⟩ : Dependency).extras :=
  ⟨by decide, rfl, by decide⟩

/-- C7 (amended): a successful per-index resolution rebuilds the result
from the name alone — the resolved specifier has the original name, an
empty extras set and no marker (the original extras and marker are
dropped), and is pinned `~=` to the scraped latest version whenever that
version string is nonempty. -/
theorem resolve_on_index_rebuilds_from_name :
    ∀ (net : Net) (dep : Dependency) (index : Str) (d : Dependency),
      dep.name ≠ [] → (∀ c ∈ dep.name, nameChar c = true) →
      resolve_on_index net dep index = .value (some d) →
      d.name = dep.name ∧ d.extras = [] ∧ d.markers = none ∧
      ∃ v, get_latest_version_from_version_str
          ((parse_versions_on_index dep
            (net.anchors (index ++ '/' :: dep.name))).getD []) = some v ∧
        (v ≠ [] → d.version_spec = some ("~=".toList, v)) ∧
        (v = [] → d.version_spec = none) := by
  intro net dep index d hn1 hn2 h
  unfold resolve_on_index at h
  simp only [] at h
  split at h
  · exact absurd (Outcome.value.inj h) (by simp)
  split at h
  · exact absurd (Outcome.value.inj h) (by simp)
  rcases hlv : get_latest_version_from_version_str
      ((parse_versions_on_index dep
        (net.anchors (index ++ '/' :: dep.name))).getD []) with _ | v
  · rw [hlv] at h
    exact absurd (Outcome.value.inj h) (by simp)
  · rw [hlv] at h
    simp only [] at h
    have hvall : ∀ c ∈ v, verChar c = true := by
      have hmem := get_latest_mem hlv
      have hfold : v ∈ (net.anchors (index ++ '/' :: dep.name)).foldl
          (scrapeStep dep.name) [] := by
        simpa [parse_versions_on_index] using hmem
      rcases scrapeFold_charset _ [] hfold with hin | hall
      · exact absurd hin (List.not_mem_nil v)
      · exact digitDot_verChar hall
    rw [parse_pin hn1 hn2 hvall] at h
    simp only [] at h
    obtain rfl : (⟨dep.name, [], if v = [] then none else some (['~', '='], v),
        none⟩ : Dependency) = d := Option.some.inj (Outcome.value.inj h)
    refine ⟨rfl, rfl, rfl, v, rfl, ?_, ?_⟩
    · intro hne
      simp only [Dependency.version_spec]
      rw [if_neg hne]
      rfl
    · intro hnil
      simp only [Dependency.version_spec]
      rw [if_pos hnil]

/-- Witness for C7 (amended) at the concrete `pandas` resolution of the
counterexample. -/
theorem resolve_on_index_rebuilds_from_name_witness :
    (⟨"pandas".toList, [], some ("~=".toList, "2.1.3".toList), none⟩ :
        Dependency).name = "pandas".toList ∧
    (⟨"pandas".toList, [], some ("~=".toList, "2.1.3".toList), none⟩ :
        Dependency).extras = [] := by
  have h := resolve_on_index_rebuilds_from_name netPandas
    ⟨"pandas".toList, ["excel".toList], none, none⟩
    "https://pypi.org/simple".toList
    ⟨"pandas".toList, [], some ("~=".toList, "2.1.3".toList), none⟩
    (by decide) (by decide) rfl
  exact ⟨h.1, h.2.1⟩
